import Mathlib

/-!
# Verification of the hybrid name-resolution pipeline

A shallow embedding, in Lean 4, of the counterparty-name matching pipeline
(`app/preprocessing/text_cleaner.py`, `app/matching/*.py`,
`app/routes/match_users.py`).  Strings are modelled as `List Char` (wrapped in
`String` at the interfaces), Python floats as `ℚ` (the pipeline only adds,
multiplies, compares and clamps scores, so exact rational arithmetic is a
faithful model of every value the program actually computes on the inputs
used here), and Python regular-expression passes as explicit character-list
scanners implementing the same leftmost, non-overlapping match semantics.

External libraries that the pipeline calls are modelled as follows:

* `rapidfuzz` similarity metrics (`FuzzyMatcher._compute_base_score`): kept
  as an explicit function parameter `baseScore` of the pipeline — every
  theorem below either holds for all metrics or concerns inputs on which the
  metric is never evaluated.
* the sentence-transformer embedding model: a function parameter `encode`;
  `none` models an exception raised inside the `encode` call.
* `unidecode`: a character-wise table (`unidecodeChar`), identity on ASCII
  (which is `unidecode`'s documented behaviour) plus the non-ASCII entries
  exercised by the development.
* `unicodedata.normalize("NFKC", ·)`: modelled as the identity, which is
  exact on ASCII input; every concrete input below is ASCII.

Python `set` iteration order (used by `CandidateNormalizer.generate_variants`
via `list(variants)[:max_variants]`) is not a function of the set's contents:
it depends on the interpreter's string-hash seed.  It is therefore modelled as
an explicit parameter `ord` of the pipeline, constrained where needed to be a
permutation of the insertion-ordered variant list.
-/

namespace DeelPipeline

/-- Python `\w` (word character) for the character set reachable in this
pipeline: ASCII alphanumerics and underscore; non-ASCII characters occurring
here are letters, which `\w` also matches. -/
def isWordChar (c : Char) : Bool :=
  c.isAlphanum || c = '_' || decide (127 < c.toNat)

/-- Python `\s` on the ASCII range (space, tab, newline, carriage return,
vertical tab, form feed). -/
def isSpaceChar (c : Char) : Bool :=
  c = ' ' || c = '\t' || c = '\n' || c = '\r' ||
  decide (c.toNat = 11) || decide (c.toNat = 12)

/-- Python `str.lower()` restricted to ASCII (every lowering performed on the
inputs of the theorems below is an ASCII lowering). -/
def pyLowerChar (c : Char) : Char :=
  if c.toNat ≥ 65 ∧ c.toNat ≤ 90 then Char.ofNat (c.toNat + 32) else c

def pyLowerList (cs : List Char) : List Char := cs.map pyLowerChar

/-- Python `str.upper()` restricted to ASCII. -/
def pyUpperChar (c : Char) : Char :=
  if c.toNat ≥ 97 ∧ c.toNat ≤ 122 then Char.ofNat (c.toNat - 32) else c

/-- ASCII lowercase letter (`[a-z]`). -/
def isLowerAlpha (c : Char) : Bool := decide ('a' ≤ c) && decide (c ≤ 'z')

/-- ASCII letter (`[a-z]` with `re.IGNORECASE`). -/
def isAlphaAI (c : Char) : Bool := isLowerAlpha c || (decide ('A' ≤ c) && decide (c ≤ 'Z'))

/-- ASCII digit. -/
def isDigitChar (c : Char) : Bool := decide ('0' ≤ c) && decide (c ≤ '9')

/-- Collapse every run of whitespace into a single `' '`
(the effect of `re.sub(r'\s+', ' ', text)`). -/
def collapseWS : List Char → List Char :=
  go false
where
  go : Bool → List Char → List Char
    | _, [] => []
    | inWS, c :: cs =>
      if isSpaceChar c then
        if inWS then go true cs else ' ' :: go true cs
      else c :: go false cs

/-- Python `str.strip()` (remove leading and trailing whitespace). -/
def trimWS (cs : List Char) : List Char :=
  ((cs.dropWhile isSpaceChar).reverse.dropWhile isSpaceChar).reverse

/-- Python `str.strip(chars)` for an explicit character set. -/
def trimChars (set : List Char) (cs : List Char) : List Char :=
  ((cs.dropWhile (· ∈ set)).reverse.dropWhile (· ∈ set)).reverse

/-- Python `str.split()` with no argument: split on whitespace runs,
dropping empty pieces. -/
def splitWS : List Char → List (List Char) :=
  go []
where
  go (cur : List Char) : List Char → List (List Char)
    | [] => if cur = [] then [] else [cur.reverse]
    | c :: cs =>
      if isSpaceChar c then
        if cur = [] then go [] cs else cur.reverse :: go [] cs
      else go (c :: cur) cs

/-- `' '.join(pieces)`. -/
def joinSpace : List (List Char) → List Char
  | [] => []
  | [t] => t
  | t :: ts => t ++ ' ' :: joinSpace ts

/-- Python `str.find(sub)`: index of the first occurrence, `none` when
absent (Python returns `-1`; the two encodings are interconverted at use
sites). -/
def findSub (needle : List Char) : List Char → Option Nat :=
  go 0
where
  go (i : Nat) (hay : List Char) : Option Nat :=
    if needle.isPrefixOf hay then some i
    else
      match hay with
      | [] => none
      | _ :: t => go (i + 1) t

/-- Python `sub in hay`. -/
def containsSub (needle hay : List Char) : Bool :=
  (findSub needle hay).isSome

/-- Python `str.replace(needle, repl)`: replace all non-overlapping
occurrences, scanning left to right (the needles used here are nonempty).
The scanners of this development recurse on a step-count fuel (each step
consumes at least one character, so the wrappers' fuel, the text length plus
one, never runs out); fuel keeps every definition structurally recursive and
hence kernel-evaluable. -/
def replaceAll (needle repl : List Char) (l : List Char) : List Char :=
  go (l.length + 1) l
where
  go : Nat → List Char → List Char
    | 0, cs => cs
    | _ + 1, [] => []
    | fuel + 1, c :: cs =>
      if needle ≠ [] ∧ needle.isPrefixOf (c :: cs) then
        repl ++ go fuel ((c :: cs).drop needle.length)
      else
        c :: go fuel cs

/-- Python `token.capitalize()`: first character uppercased, the rest
lowercased (ASCII model). -/
def pyCapitalize (cs : List Char) : List Char :=
  match cs with
  | [] => []
  | c :: t => pyUpperChar c :: pyLowerList t

/-- A `\b` boundary holds before a word character at position `i` iff `i = 0`
or the preceding character is not a word character.  `prev` is the original
character preceding the scanner's position (`none` at the start of text). -/
def boundaryBefore : Option Char → Bool
  | none => true
  | some p => !isWordChar p

/-- A `\b` boundary holds after a word character iff the remaining text is
empty or starts with a non-word character. -/
def boundaryAfter : List Char → Bool
  | [] => true
  | c :: _ => !isWordChar c

/-- Case-insensitive literal prefix test (`re.IGNORECASE` on an ASCII
pattern). -/
def prefixAI (pat cs : List Char) : Bool :=
  pyLowerList (cs.take pat.length) = pyLowerList pat

/-! ## `unidecode` model

`unidecode` transliterates Unicode to ASCII character by character.  It is
the identity on ASCII input (documented library behaviour); the only
non-ASCII characters this development evaluates it on are listed in the
table, with their actual `unidecode` outputs (CJK ideographs map to
capitalized pinyin with a trailing space — e.g. `unidecode("中") = "Zhong "`).
Unlisted non-ASCII characters map to the empty string, `unidecode`'s
behaviour for unmapped code points. -/

def unidecodeChar (c : Char) : List Char :=
  if c.toNat < 128 then [c]
  else if c = 'é' then ['e']
  else if c = 'è' then ['e']
  else if c = 'á' then ['a']
  else if c = 'ö' then ['o']
  else if c = 'ü' then ['u']
  else if c = '中' then "Zhong ".data
  else if c = '杨' then "Yang ".data
  else if c = '陈' then "Chen ".data
  else []

def unidecodeList (cs : List Char) : List Char :=
  (cs.map unidecodeChar).flatten

/-! ## TextCleaner (`app/preprocessing/text_cleaner.py`)

Each `re.sub` pass of `soft_clean` is a dedicated scanner implementing the
regex's leftmost, non-overlapping match semantics on the original text. -/

/-- `re.sub(r'\b0([a-z])', r'o\1')` (and the analogous `1 → l` pass):
a digit at a word boundary followed by a lowercase letter is replaced by
`repl` + letter. -/
def subLookalikeLeft (d repl : Char) : List Char → List Char :=
  go none
where
  go : Option Char → List Char → List Char
    | _, [] => []
    | _, [c] => [c]
    | prev, c1 :: c2 :: rest =>
      if boundaryBefore prev ∧ c1 = d ∧ isLowerAlpha c2 then
        repl :: c2 :: go (some c2) rest
      else
        c1 :: go (some c1) (c2 :: rest)

/-- `re.sub(r'([a-z])0\b', r'\1o')` (and the analogous `1 → l` pass):
a lowercase letter followed by the digit at a word boundary. -/
def subLookalikeRight (d repl : Char) : List Char → List Char
  | [] => []
  | [c] => [c]
  | c1 :: c2 :: rest =>
    if isLowerAlpha c1 ∧ c2 = d ∧ boundaryAfter rest then
      c1 :: repl :: subLookalikeRight d repl rest
    else
      c1 :: subLookalikeRight d repl (c2 :: rest)

/-- `re.sub(r'\b0\b', 'o')` (and `\b1\b → l`): a standalone digit token. -/
def subLookalikeAlone (d repl : Char) : List Char → List Char :=
  go none
where
  go : Option Char → List Char → List Char
    | _, [] => []
    | prev, c :: rest =>
      if boundaryBefore prev ∧ c = d ∧ boundaryAfter rest then
        repl :: go (some c) rest
      else
        c :: go (some c) rest

/-- Character class `[\d\s\.]` of the `ACC//` block pattern. -/
def isAccBlockChar (c : Char) : Bool :=
  isDigitChar c || isSpaceChar c || c = '.'

/-- `TextCleaner.ACC_PATTERN.sub('', ·)`: remove every
`ACC//<digits|space|dot>+` block (case-insensitive, at least one block
character). -/
def removeAccBlocks (l : List Char) : List Char :=
  go (l.length + 1) l
where
  go : Nat → List Char → List Char
    | 0, cs => cs
    | _ + 1, [] => []
    | fuel + 1, c :: cs =>
      if prefixAI "ACC//".data (c :: cs) ∧ (cs.drop 4).takeWhile isAccBlockChar ≠ [] then
        go fuel ((cs.drop 4).dropWhile isAccBlockChar)
      else
        c :: go fuel cs

/-- The placeholder `soft_clean` uses to protect `ref:` markers. -/
def refPlaceholder : List Char := " __REF_PLACEHOLDER__ ".data

/-- `re.sub(r'\bref\s*:', ' __REF_PLACEHOLDER__ ', ·, flags=re.IGNORECASE)`:
`ref` at a word boundary, optional whitespace, then a colon. -/
def protectRef (l : List Char) : List Char :=
  go (l.length + 1) none l
where
  go : Nat → Option Char → List Char → List Char
    | 0, _, cs => cs
    | _ + 1, _, [] => []
    | fuel + 1, prev, c :: cs =>
      if boundaryBefore prev ∧ prefixAI "ref".data (c :: cs) ∧
          ((cs.drop 2).dropWhile isSpaceChar).head? = some ':' then
        refPlaceholder ++ go fuel (some ':') (((cs.drop 2).dropWhile isSpaceChar).drop 1)
      else
        c :: go fuel (some c) cs

/-- `re.sub(r'[^\w\s:]', ' ', ·)`: every character that is not a word
character, whitespace, or a colon becomes a space. -/
def symbolsToSpaces (cs : List Char) : List Char :=
  cs.map fun c => if isWordChar c || isSpaceChar c || c = ':' then c else ' '

/-- Optional truncation: Python's `if max_length and len(text) > max_length:
text = text[:max_length]` (note `0` is falsy, so a zero bound never
truncates). -/
def truncateOpt (maxLength : Option Nat) (cs : List Char) : List Char :=
  match maxLength with
  | none => cs
  | some m => if m ≠ 0 ∧ cs.length > m then cs.take m else cs

/-- `TextCleaner.soft_clean`.  `unicodedata.normalize('NFKC', ·)` is modelled
as the identity (exact on ASCII; all concrete inputs below are ASCII). -/
def softClean (maxLength : Option Nat) (text : List Char) : List Char :=
  if text = [] then []
  else
    let t := pyLowerList text
    let t := subLookalikeLeft '0' 'o' t
    let t := subLookalikeRight '0' 'o' t
    let t := subLookalikeLeft '1' 'l' t
    let t := subLookalikeRight '1' 'l' t
    let t := subLookalikeAlone '0' 'o' t
    let t := subLookalikeAlone '1' 'l' t
    let t := removeAccBlocks t
    let t := protectRef t
    let t := symbolsToSpaces t
    let t := replaceAll "__REF_PLACEHOLDER__".data "ref:".data t
    let t := collapseWS t
    let t := trimWS t
    truncateOpt maxLength t

/-- The alternatives of `TextCleaner.BOILERPLATE_PATTERN`, in the pattern's
order.  Note the tenth alternative is the two-word phrase `"to deel"`, not
the single word `"to"`. -/
def boilerplateAlts : List (List Char) :=
  ["from".data, "for".data, "deel".data, "payment".data, "transfer".data,
   "received".data, "request".data, "credit".data, "debit".data,
   "to deel".data, "cntr".data, "wise".data, "test".data]

/-- First alternative of `BOILERPLATE_PATTERN` matching at the current
position (case-insensitively, with a `\b` required after the match). -/
def findBoilerplateAlt (cs : List Char) : Option (List Char) :=
  boilerplateAlts.find? fun a =>
    prefixAI a cs && decide (cs.length ≥ a.length) && boundaryAfter (cs.drop a.length)

/-- `TextCleaner.BOILERPLATE_PATTERN.sub(' ', ·)`: replace each leftmost
non-overlapping match (an alternative between `\b` boundaries) with a
space. -/
def boilerplateSub (l : List Char) : List Char :=
  go (l.length + 1) none l
where
  go : Nat → Option Char → List Char → List Char
    | 0, _, cs => cs
    | _ + 1, _, [] => []
    | fuel + 1, prev, c :: cs =>
      if boundaryBefore prev then
        match findBoilerplateAlt (c :: cs) with
        | some a =>
          ' ' :: go fuel (((c :: cs).take a.length).getLast?) ((c :: cs).drop a.length)
        | none => c :: go fuel (some c) cs
      else
        c :: go fuel (some c) cs

/-- `TextCleaner.hard_clean`: `soft_clean`, then remove boilerplate-pattern
matches, then re-collapse and strip whitespace. -/
def hardClean (maxLength : Option Nat) (text : List Char) : List Char :=
  if text = [] then []
  else
    let t := softClean maxLength text
    let t := boilerplateSub t
    trimWS (collapseWS t)

/-! ## Misspelling map (`app/matching/misspelling_map.py`) -/

/-- `MISSPELLING_MAP`, in insertion order. -/
def misspellingMap : List (List Char × List Char) :=
  [("talor".data, "taylor".data),
   ("gonzal ez".data, "gonzalez".data),
   ("rodri guez".data, "rodriguez".data),
   ("leedsfor".data, "leeds for".data),
   ("brookers".data, "brooks".data),
   ("matthewbrooks".data, "matthew brooks".data)]

/-- `normalize_misspelling`: exact lookup on the lowered, stripped text;
otherwise replace the first map key occurring as a substring; otherwise
return the original text. -/
def normalizeMisspelling (text : List Char) : List Char :=
  let textLower := trimWS (pyLowerList text)
  match misspellingMap.find? (fun kv => kv.1 = textLower) with
  | some kv => kv.2
  | none =>
    match misspellingMap.find? (fun kv => containsSub kv.1 textLower) with
    | some kv => replaceAll kv.1 kv.2 textLower
    | none => text

/-! ## Transliteration map (`app/matching/transliteration_map.py`) -/

/-- `TRANSLITERATION_MAP`, in insertion order. -/
def transliterationMap : List (List Char × List Char) :=
  [("杨陈".data, "yang chen".data),
   ("陈剑".data, "jian chen".data),
   ("刘王".data, "liu wang".data),
   ("李周".data, "li zhou".data),
   ("Αλέξανδρος Μπέικερ".data, "alexander baker".data),
   ("Στέλλα Σάντερς".data, "stella sanders".data),
   ("Ανδρέας Ροντέελ".data, "andreas rodeel".data),
   ("Ἄλεξις".data, "alexis".data),
   ("אֲבִיגַיִל גרין".data, "avigail green".data)]

/-- `get_transliteration`: exact lookup first, then a case-insensitive
(lowered, stripped) comparison against each key. -/
def getTransliteration (name : List Char) : Option (List Char) :=
  match transliterationMap.find? (fun kv => kv.1 = name) with
  | some kv => some kv.2
  | none =>
    let nameLower := trimWS (pyLowerList name)
    match transliterationMap.find? (fun kv => trimWS (pyLowerList kv.1) = nameLower) with
    | some kv => some kv.2
    | none => none

/-- `has_non_latin_chars`: any character above ASCII that is not one of the
listed punctuation characters. -/
def hasNonLatinChars (text : List Char) : Bool :=
  text.any fun c => decide (127 < c.toNat) && decide (c ∉ ".,;:!?-()[]{}".data)

/-! ## CandidateNormalizer (`app/matching/candidate_normalizer.py`) -/

/-- `CandidateNormalizer.normalize_candidate`: lowercase and strip, strip
diacritics via `unidecode`, collapse internal whitespace, strip. -/
def normalizeCandidate (candidate : List Char) : List Char :=
  if candidate = [] then []
  else
    let t := trimWS (pyLowerList candidate)
    let t := unidecodeList t
    trimWS (collapseWS t)

/-- `re.sub(r'\d+$', '', token)`: strip a maximal run of trailing digits. -/
def dropTrailingDigits (tok : List Char) : List Char :=
  (tok.reverse.dropWhile isDigitChar).reverse

/-- The acceptance test of `_try_split_token` at one split position: the
code first requires both raw halves in the dictionary, and otherwise accepts
when each half is present either raw or capitalized; the two tests together
accept exactly when each half is present raw or capitalized. -/
def splitAcceptable (userTokens : List (List Char)) (tok : List Char) (p : Nat) : Bool :=
  let part1 := tok.take p
  let part2 := tok.drop p
  (part1 ∈ userTokens && part2 ∈ userTokens) ||
  ((pyCapitalize part1 ∈ userTokens || part1 ∈ userTokens) &&
   (pyCapitalize part2 ∈ userTokens || part2 ∈ userTokens))

/-- `CandidateNormalizer._try_split_token`: scan split positions
`range(3, len(token) - 2)` left to right and return the two halves at the
first acceptable position. -/
def trySplitToken (userTokens : List (List Char)) (tok : List Char) :
    Option (List (List Char)) :=
  if userTokens = [] then none
  else
    match (List.range' 3 (tok.length - 5)).find? (splitAcceptable userTokens tok) with
    | some p => some [tok.take p, tok.drop p]
    | none => none

/-- `CandidateNormalizer._split_glued_words`: split each token longer than 6
characters via `_try_split_token`, leaving it intact when no split is
found. -/
def splitGluedWords (userTokens : List (List Char)) (text : List Char) : List Char :=
  if userTokens = [] then text
  else
    joinSpace (((splitWS text).map fun tok =>
      if tok.length > 6 then
        match trySplitToken userTokens tok with
        | some parts => parts
        | none => [tok]
      else [tok]).flatten)

/-- Insertion into the model of the Python variant `set`: the set is kept as
its insertion-ordered, duplicate-free list; enumeration order is applied
separately (see `generateVariants`). -/
def addVar (acc : List (List Char)) (v : List Char) : List (List Char) :=
  if v ∈ acc then acc else acc ++ [v]

/-- The insertion-ordered element list of `generate_variants`'s `variants`
set, together with the flag distinguishing the early `return list(variants)`
(token-less normalized text, no truncation — flag `false`) from the final
`list(variants)[:max_variants]` (flag `true`); `none` models the early
`return []` on an empty normalized text. -/
def variantParts (userTokens : List (List Char)) (candidate : List Char) :
    Option (List (List Char) × Bool) :=
  let normalized := normalizeCandidate candidate
  if normalized = [] then none
  else
    let normalized := splitGluedWords userTokens (normalizeMisspelling normalized)
    let vs := addVar [] normalized
    let tokens := splitWS normalized
    if tokens = [] then some (vs, false)
    else
      let vs := match tokens with
        | [a, b] => addVar vs (b ++ ' ' :: a)
        | _ => vs
      let vs :=
        if tokens.length > 2 then
          let filtered := tokens.filter fun t =>
            decide (t.length > 1) ||
            decide (pyLowerList t ∉ ["j".data, "k".data, "jr".data, "sr".data])
          if filtered.length ≥ 2 then addVar vs (joinSpace filtered) else vs
        else vs
      let vs := tokens.foldl (fun acc token =>
        let cleaned := dropTrailingDigits token
        if cleaned ≠ [] ∧ cleaned ≠ token then
          addVar acc (joinSpace (tokens.map fun t => if t = token then cleaned else t))
        else acc) vs
      let vs :=
        if hasNonLatinChars candidate then
          match getTransliteration candidate with
          | some tr =>
            let vs := addVar vs (pyLowerList tr)
            match splitWS tr with
            | [a, b] => addVar vs (b ++ ' ' :: a)
            | _ => vs
          | none => vs
        else vs
      some (vs, true)

/-- `CandidateNormalizer.generate_variants`.  `ord` models the enumeration
order of `list(variants)`: Python set iteration order is a hash-seed
dependent permutation of the set's elements, so it is a parameter here,
applied to the insertion-ordered element list. -/
def generateVariants (ord : List (List Char) → List (List Char))
    (userTokens : List (List Char)) (candidate : List Char) (maxVariants : Nat) :
    List (List Char) :=
  match variantParts userTokens candidate with
  | none => []
  | some (vs, false) => ord vs
  | some (vs, true) => (ord vs).take maxVariants

/-! ## CandidateExtractor (`app/matching/candidate_extractor.py`)

The three anchor passes are `re.finditer` loops; each is modelled by a
scanner implementing leftmost, non-overlapping matching with the pattern's
lazy-group semantics (the group is the shortest nonempty text followed by
one of the pattern's terminators).  The scanners carry a step-count fuel,
set to the text length plus one by the wrapper; every scanning step consumes
at least one character, so the fuel never runs out on the wrapper's calls. -/

/-- Candidate record.  The source's `start_pos`/`end_pos` span fields are
omitted: no consumer of a `Candidate` ever reads them. -/
structure Candidate where
  text : List Char
  anchor : String
  priority : Nat
deriving DecidableEq, Repr

/-- Terminator test for the `from` pattern's `(?:\s+for\b|,|$)`: returns the
number of characters the terminator consumes together with the character
preceding the continuation point. -/
def fromTailMatch (cs : List Char) : Option (Nat × Option Char) :=
  let ws := cs.takeWhile isSpaceChar
  if ws ≠ [] ∧ prefixAI "for".data (cs.drop ws.length) ∧
      boundaryAfter (cs.drop (ws.length + 3)) then
    some (ws.length + 3, ((cs.drop ws.length).take 3).getLast?)
  else if cs.head? = some ',' then some (1, some ',')
  else if cs = [] then some (0, none)
  else none

/-- Lazy-group search for the `from` pattern: extend the comma-free group one
character at a time, accepting at the first position where a terminator
matches.  Returns `(group, preceding character, rest of text)`. -/
def lazyGroupFrom (tail : List Char → Option (Nat × Option Char)) :
    List Char → List Char → Option (List Char × Option Char × List Char)
  | acc, cs =>
    match if acc = [] then none else tail cs with
    | some (k, p) => some (acc.reverse, p, cs.drop k)
    | none =>
      match cs with
      | [] => none
      | c :: rest => if c = ',' then none else lazyGroupFrom tail (c :: acc) rest

/-- `_extract_after_from`: `re.finditer(r'\bfrom\s+([^,]+?)(?:\s+for\b|,|$)')`,
collecting the group of each match. -/
def fromScan : Nat → Option Char → List Char → List (List Char)
  | 0, _, _ => []
  | _ + 1, _, [] => []
  | fuel + 1, prev, c :: rest =>
    if boundaryBefore prev ∧ prefixAI "from".data (c :: rest) then
      let afterKw := (c :: rest).drop 4
      let ws := afterKw.takeWhile isSpaceChar
      if ws ≠ [] then
        match lazyGroupFrom fromTailMatch [] (afterKw.drop ws.length) with
        | some (g, p, rest2) => g :: fromScan fuel p rest2
        | none => fromScan fuel (some c) rest
      else fromScan fuel (some c) rest
    else fromScan fuel (some c) rest

/-- Terminator test for the `ref` pattern's
`(?:\s+(?:cntr|for|and|cc)\b|,|$)`. -/
def refTailMatch (cs : List Char) : Option (Nat × Option Char) :=
  let ws := cs.takeWhile isSpaceChar
  let kwTry := ["cntr".data, "for".data, "and".data, "cc".data].find? fun kw =>
    prefixAI kw (cs.drop ws.length) && boundaryAfter (cs.drop (ws.length + kw.length))
  match kwTry with
  | some kw =>
    if ws ≠ [] then
      some (ws.length + kw.length, ((cs.drop ws.length).take kw.length).getLast?)
    else if cs.head? = some ',' then some (1, some ',')
    else if cs = [] then some (0, none)
    else none
  | none =>
    if cs.head? = some ',' then some (1, some ',')
    else if cs = [] then some (0, none)
    else none

/-- `_extract_after_ref`:
`re.finditer(r'\bref\s*:\s*([^,]+?)(?:\s+(?:cntr|for|and|cc)\b|,|$)')`. -/
def refScan : Nat → Option Char → List Char → List (List Char)
  | 0, _, _ => []
  | _ + 1, _, [] => []
  | fuel + 1, prev, c :: rest =>
    if boundaryBefore prev ∧ prefixAI "ref".data (c :: rest) then
      let afterKw := (c :: rest).drop 3
      let afterWs1 := afterKw.dropWhile isSpaceChar
      if afterWs1.head? = some ':' then
        let afterColon := (afterWs1.drop 1).dropWhile isSpaceChar
        match lazyGroupFrom refTailMatch [] afterColon with
        | some (g, p, rest2) => g :: refScan fuel p rest2
        | none => refScan fuel (some c) rest
      else refScan fuel (some c) rest
    else refScan fuel (some c) rest

/-- Terminator test for the `for deel` pattern's `\s+for\s+deel\b`. -/
def forDeelTailMatch (cs : List Char) : Option (Nat × Option Char) :=
  let ws1 := cs.takeWhile isSpaceChar
  if ws1 = [] then none
  else
    let afterFor := cs.drop (ws1.length + 3)
    if prefixAI "for".data (cs.drop ws1.length) then
      let ws2 := afterFor.takeWhile isSpaceChar
      if ws2 ≠ [] ∧ prefixAI "deel".data (afterFor.drop ws2.length) ∧
          boundaryAfter (afterFor.drop (ws2.length + 4)) then
        some (ws1.length + 3 + ws2.length + 4,
          ((afterFor.drop ws2.length).take 4).getLast?)
      else none
    else none

/-- Lazy-group search for `(.+?)\s+for\s+deel\b`: the group may contain
commas (`.` matches anything except a newline). -/
def lazyGroupDot : List Char → List Char → Option (List Char × Option Char × List Char)
  | acc, cs =>
    match if acc = [] then none else forDeelTailMatch cs with
    | some (k, p) => some (acc.reverse, p, cs.drop k)
    | none =>
      match cs with
      | [] => none
      | c :: rest => if c = '\n' then none else lazyGroupDot (c :: acc) rest

/-- `_extract_before_for_deel`: `re.finditer(r'(.+?)\s+for\s+deel\b')`,
collecting the group of each match. -/
def forDeelScan : Nat → List Char → List (List Char)
  | 0, _ => []
  | _ + 1, [] => []
  | fuel + 1, c :: rest =>
    match lazyGroupDot [] (c :: rest) with
    | some (g, _, rest2) => g :: forDeelScan fuel rest2
    | none => forDeelScan fuel rest

/-- `CandidateExtractor.BOILERPLATE_WORDS` (note: this set, unlike the
cleaner's pattern, contains the standalone word `to`). -/
def extractorBoilerplateWords : List (List Char) :=
  ["from".data, "for".data, "deel".data, "payment".data, "transfer".data,
   "received".data, "request".data, "credit".data, "debit".data,
   "to".data, "cntr".data, "wise".data, "test".data]

/-- `CandidateExtractor._is_valid_candidate`. -/
def isValidCandidate (text : List Char) : Bool :=
  if text = [] || (trimWS text).length < 2 then false
  else
    let words := splitWS (pyLowerList text)
    if words.all (· ∈ extractorBoilerplateWords) then false
    else if words.length < 1 || words.length > 6 then false
    else text.any isAlphaAI

/-- `CandidateExtractor._fallback_windows`: sliding windows of 2, 3 and 4
tokens containing at least 2 alphabetic tokens. -/
def fallbackWindows (text : List Char) : List Candidate :=
  let words := splitWS text
  if words.length < 2 then []
  else
    ([2, 3, 4].map fun wsz =>
      (if words.length + 1 ≥ wsz then List.range (words.length + 1 - wsz) else []).filterMap
        fun i =>
          let window := (words.drop i).take wsz
          let windowText := joinSpace window
          let alphaCount := (window.filter fun w => w.any isAlphaAI).length
          if alphaCount ≥ 2 ∧ isValidCandidate windowText then
            some ⟨windowText, "fallback", 0⟩
          else none).flatten

/-- Wrap one anchor pass: keep the stripped groups that pass
`_is_valid_candidate`, tagged with the pass's anchor and priority. -/
def candidatesOfGroups (anchor : String) (priority : Nat) (groups : List (List Char)) :
    List Candidate :=
  groups.filterMap fun g =>
    let nameText := trimWS g
    if isValidCandidate nameText then some ⟨nameText, anchor, priority⟩ else none

/-- `_extract_before_for_deel`'s per-match processing: strip the group, and
when it has at least two words keep the last four (or all, when fewer). -/
def forDeelCandidates (groups : List (List Char)) : List Candidate :=
  groups.filterMap fun g =>
    let beforeText := trimWS g
    let words := splitWS beforeText
    if words.length ≥ 2 then
      let nameWords := if words.length ≥ 4 then words.drop (words.length - 4) else words
      let nameText := joinSpace nameWords
      if isValidCandidate nameText then some ⟨nameText, "for_deel", 1⟩ else none
    else none

/-- The punctuation set of `_post_filter_candidates`'s
`strip('.,;:!?()-[]{}"\'')`. -/
def postFilterPunct : List Char := ['.', ',', ';', ':', '!', '?', '(', ')', '-',
  '[', ']', '{', '}', '"', '\'']

/-- `CandidateExtractor._post_filter_candidates`: trim surrounding
punctuation, drop empty results and word counts outside 1–6. -/
def postFilterCandidates (cands : List Candidate) : List Candidate :=
  cands.filterMap fun cand =>
    let cleaned := trimWS (trimChars postFilterPunct cand.text)
    if cleaned = [] then none
    else
      let words := splitWS cleaned
      if words.length < 1 ∨ words.length > 6 then none
      else some { cand with text := cleaned }

/-- Stable insertion sort: `before x y` means `x` must precede `y` strictly;
elements comparing equal keep their original relative order, matching
Python's stable `list.sort`. -/
def stableInsert (before : α → α → Bool) (x : α) : List α → List α
  | [] => [x]
  | y :: ys => if before x y then x :: y :: ys else y :: stableInsert before x ys

def stableSortBy (before : α → α → Bool) (l : List α) : List α :=
  l.foldl (fun acc x => stableInsert before x acc) []

/-- The comparison of `candidates.sort(key=lambda c: (c.priority,
-len(c.text)), reverse=True)`: priority descending, then text length
ascending (the negated length together with `reverse=True` makes the length
component ascending). -/
def candBefore (c1 c2 : Candidate) : Bool :=
  decide (c2.priority < c1.priority) ||
  (decide (c1.priority = c2.priority) && decide (c1.text.length < c2.text.length))

/-- The dedup-and-truncate loop of `extract_candidates`: keep the first
occurrence of each lowercased, stripped text, stopping once `maxC` entries
were appended (the loop appends, then breaks when the count reaches the
cap). -/
def dedupTake (maxC : Nat) : List (List Char) → Nat → List Candidate → List Candidate
  | _, _, [] => []
  | seen, k, c :: cs =>
    let tn := trimWS (pyLowerList c.text)
    if tn ∉ seen ∧ tn ≠ [] then
      if k + 1 ≥ maxC then [c]
      else c :: dedupTake maxC (tn :: seen) (k + 1) cs
    else dedupTake maxC seen k cs

/-- `CandidateExtractor.extract_candidates`. -/
def extractCandidates (text : List Char) (maxC : Nat) : List Candidate :=
  let fuel := text.length + 1
  let pooled :=
    candidatesOfGroups "from" 3 (fromScan fuel none text) ++
    candidatesOfGroups "ref" 2 (refScan fuel none text) ++
    forDeelCandidates (forDeelScan fuel text)
  let pooled := if pooled = [] then fallbackWindows text else pooled
  let filtered := postFilterCandidates pooled
  let sorted := stableSortBy candBefore filtered
  dedupTake maxC [] 0 sorted

/-! ## Configuration (`app/config/settings.py`)

Floats are modelled as `ℚ`; every configured value is exactly
representable. -/

structure Config where
  FUZZY_ACCEPT : ℚ := 70
  EMB_ACCEPT : ℚ := 3 / 4
  ANCHOR_BONUS : ℚ := 5
  CC_PENALTY : ℚ := -8
  ERR_PENALTY : ℚ := -5
  FIRST_NAME_OVERLAP : ℚ := 5
  LAST_NAME_OVERLAP : ℚ := 5
  INITIALS_MATCH : ℚ := 3
  TOP_K_RESULTS : Nat × Nat := (3, 5)
  MAX_CANDIDATES : Nat := 5
  MAX_VARIANTS_PER_CANDIDATE : Nat := 8
  MAX_DESCRIPTION_LENGTH : Nat := 1000
  EMBEDDING_TIMEOUT_MS : Nat := 200

/-- `Config.get_top_k`: the maximum of the configured range. -/
def Config.getTopK (c : Config) : Nat := c.TOP_K_RESULTS.2

def defaultConfig : Config := {}

/-- A preprocessed user record (`UserPreprocessor.preprocess_users` output
dictionary); `embedding = none` models a record whose embedding was never
assigned. -/
structure UserRecord where
  id : List Char
  nameRaw : List Char
  nameStripAccents : List Char
  tokens : List (List Char)
  initials : List Char
  embedding : Option (List ℚ)
deriving DecidableEq, Repr

/-- A scoring-record dictionary: fuzzy matches carry `base_score`, embedding
matches carry `cosine_sim`. -/
structure Match where
  userId : List Char
  userName : List Char
  score : ℚ
  candidate : List Char
  baseScore : Option ℚ
  cosineSim : Option ℚ
deriving DecidableEq, Repr

/-! ## FuzzyMatcher (`app/matching/fuzzy_matcher.py`)

`_compute_base_score` is a maximum over `rapidfuzz` metrics; the external
metric is a function parameter `baseScoreFn` of the embedding.  Every
theorem below either quantifies over all metrics or concerns runs in which
the metric is never evaluated. -/

/-- The gate of the CC penalty in `_apply_bonuses_penalties`: `'cc' in
description_lower` is a plain substring test, and the positions compared are
the first occurrence of `"cc"` and the first occurrence of the variant
text. -/
def ccPenaltyFires (description candidate : List Char) : Bool :=
  let dl := pyLowerList description
  let cl := pyLowerList candidate
  match findSub "cc".data dl with
  | none => false
  | some ccPos =>
    match findSub cl dl with
    | none => false
    | some cp => decide (ccPos < cp) && decide (cp < ccPos + 100)

/-- The gate of the ERR penalty: an `err#` or `err #` substring (the inner
`'err' in description` re-check is implied by either). -/
def errPenaltyFires (description : List Char) : Bool :=
  let dl := pyLowerList description
  containsSub "err#".data dl || containsSub "err #".data dl

/-- `FuzzyMatcher._apply_bonuses_penalties`: first-name, last-name and
initials bonuses, then the CC and ERR penalties, added to the base score
(the early return fires when the user has no tokens). -/
def applyBonusesPenalties (cfg : Config) (baseScore : ℚ) (candidate : List Char)
    (user : UserRecord) (description : List Char) : ℚ :=
  let candidateTokens := splitWS (pyLowerList candidate)
  if user.tokens = [] then baseScore
  else
    let firstBonus :=
      match candidateTokens.head?, user.tokens.head? with
      | some ct, some ut =>
        if pyLowerList ct = pyLowerList ut then cfg.FIRST_NAME_OVERLAP else 0
      | _, _ => 0
    let lastBonus :=
      if candidateTokens.length > 1 ∧ user.tokens.length > 1 then
        match candidateTokens.getLast?, user.tokens.getLast? with
        | some ct, some ut =>
          if pyLowerList ct = pyLowerList ut then cfg.LAST_NAME_OVERLAP else 0
        | _, _ => 0
      else 0
    let userInitials := pyLowerList user.initials
    let initialsBonus :=
      if userInitials ≠ [] then
        let candidateInitials := pyLowerList (candidateTokens.filterMap List.head?)
        if candidateInitials = userInitials then cfg.INITIALS_MATCH else 0
      else 0
    let ccTerm := if ccPenaltyFires description candidate then cfg.CC_PENALTY else 0
    let errTerm := if errPenaltyFires description then cfg.ERR_PENALTY else 0
    baseScore + firstBonus + lastBonus + initialsBonus + ccTerm + errTerm

/-- Comparison used by the matchers' `sort(key=lambda x: x['score'],
reverse=True)`: score descending, ties in original order. -/
def scoreBefore (a b : Match) : Bool := decide (b.score < a.score)

/-- `FuzzyMatcher.fuzzy_match`: score every (variant, user) pair with the
metric `baseScoreFn`, apply bonuses and penalties, clamp into `[0, 100]`,
keep pairs at or above `threshold`, sort by score descending. -/
def fuzzyMatch (cfg : Config) (baseScoreFn : List Char → List Char → ℚ)
    (variants : List (List Char)) (users : List UserRecord) (threshold : ℚ)
    (description : List Char) : List Match :=
  let ms := (variants.map fun v =>
    if v = [] then []
    else users.filterMap fun u =>
      if u.nameStripAccents = [] then none
      else
        let base := baseScoreFn v u.nameStripAccents
        let final := applyBonusesPenalties cfg base v u description
        let final := min 100 (max 0 final)
        if final ≥ threshold then
          some ⟨u.id, u.nameRaw, final, v, some base, none⟩
        else none).flatten
  stableSortBy scoreBefore ms

/-! ## EmbeddingMatcher (`app/matching/embedding_matcher.py`)

The sentence-transformer is the parameter `encode`; `none` models an
exception inside the `encode` call (caught, yielding `[]`).  `numpy` vector
arithmetic is exact rational arithmetic here; `np.linalg.norm` is modelled
by an exact rational square root (`ratSqrt`), total by returning `0` off
perfect squares — every vector a theorem evaluates has a perfect-square
norm.  The wall-clock budget checks (`elapsed_ms > timeout_ms`) are modelled
as never exceeded (elapsed time zero); a user embedding whose dimension
disagrees with the candidate's would make `np.dot` raise, which the
`except` turns into `[]` — modelled by the dimension guard. -/

/-- Exact rational square root: `ratSqrt q * ratSqrt q = q` whenever `q` is
a square of a rational, `0` otherwise. -/
def ratSqrt (q : ℚ) : ℚ :=
  if q ≤ 0 then 0
  else
    let n := q.num.toNat.sqrt
    let d := q.den.sqrt
    if n * n = q.num.toNat ∧ d * d = q.den then (n : ℚ) / (d : ℚ) else 0

def dotQ (a b : List ℚ) : ℚ := ((a.zip b).map fun p => p.1 * p.2).sum

def normVec (v : List ℚ) : List ℚ :=
  let n := ratSqrt (dotQ v v)
  v.map (· / n)

/-- The texts `embedding_match` embeds: the first variant plus, when it has
non-Latin characters and a distinct transliteration, that transliteration. -/
def embeddingTexts (best : List Char) : List (List Char) :=
  match (if hasNonLatinChars best then getTransliteration best else none) with
  | some t => if t ≠ best then [best, t] else [best]
  | none => [best]

/-- The part of `embedding_match` following the `encode` call.  Note line 83
of the source (`candidate_embedding = candidate_embeddings[0]`): only the
first returned embedding is ever compared; a second embedding (the
transliteration's) is computed and discarded. -/
def embeddingMatchCore (best : List Char) (users : List UserRecord)
    (threshold : ℚ) : Option (List (List ℚ)) → List Match
  | none => []
  | some [] => []
  | some (e0 :: _) =>
    if users.any (fun u =>
        match u.embedding with
        | some v => v.length ≠ e0.length
        | none => false) then []
    else
      let cand := normVec e0
      let ms := users.filterMap fun u =>
        match u.embedding with
        | none => none
        | some ue =>
          let uen := normVec ue
          let cos := dotQ cand uen
          if cos ≥ threshold then
            some ⟨u.id, u.nameRaw, cos * 100, best, none, some cos⟩
          else none
      stableSortBy scoreBefore ms

/-- `EmbeddingMatcher.embedding_match`. -/
def embeddingMatch (encode : List (List Char) → Option (List (List ℚ)))
    (variants : List (List Char)) (users : List UserRecord) (threshold : ℚ) :
    List Match :=
  match variants with
  | [] => []
  | best :: _ => embeddingMatchCore best users threshold (encode (embeddingTexts best))

/-! ## Disambiguator (`app/matching/disambiguator.py`) -/

/-- `anchor_priority` of `_get_primary_anchor`. -/
def anchorPriority (anchor : String) : Nat :=
  if anchor = "from" then 3
  else if anchor = "ref" then 2
  else if anchor = "for_deel" then 1
  else if anchor = "fallback" then 0
  else 0

/-- `Disambiguator._get_primary_anchor`: the anchor of the first candidate
of maximal anchor priority (`max` keeps the first maximum). -/
def primaryAnchor (cands : List Candidate) : String :=
  match cands with
  | [] => "fallback"
  | c :: rest =>
    (rest.foldl (fun best x =>
      if anchorPriority x.anchor > anchorPriority best.anchor then x else best) c).anchor

/-- The `candidate_lookup` dictionary `{c.text.lower(): c for c in
candidates}`: on key collisions the later candidate wins. -/
def candidateLookup (cands : List Candidate) (key : List Char) : Option Candidate :=
  cands.reverse.find? fun c => pyLowerList c.text = key

/-- Start positions of the standalone-`cc` tokens of
`re.finditer(r'\bcc\b', description_lower)` (leftmost, non-overlapping). -/
def ccTokenPositions (dl : List Char) : List Nat :=
  go (dl.length + 1) 0 none dl
where
  go : Nat → Nat → Option Char → List Char → List Nat
    | 0, _, _, _ => []
    | _ + 1, _, _, [] => []
    | fuel + 1, i, prev, c :: rest =>
      if boundaryBefore prev ∧ c = 'c' ∧ rest.head? = some 'c' ∧
          boundaryAfter (rest.drop 1) then
        i :: go fuel (i + 2) (some 'c') (rest.drop 1)
      else
        go fuel (i + 1) (some c) rest

/-- `Disambiguator._is_in_cc_region`: the candidate's lowercased text occurs
in the 200-character window starting at some standalone `cc` token. -/
def isInCCRegion (cand : Candidate) (description : List Char) : Bool :=
  let dl := pyLowerList description
  let cl := pyLowerList cand.text
  (ccTokenPositions dl).any fun p => containsSub cl ((dl.drop p).take 200)

/-- The anchor-bonus / CC-penalty pass of `disambiguate` (lines 47–60): each
match's variant text is looked up among the original candidate texts; on a
hit the anchor bonus and the CC-region penalty are applied. -/
def anchorCCStage (cfg : Config) (cands : List Candidate) (description : List Char)
    (ms : List Match) : List Match :=
  let primary := primaryAnchor cands
  ms.map fun m =>
    match candidateLookup cands (pyLowerList m.candidate) with
    | some c =>
      let s := m.score + (if c.anchor = primary then cfg.ANCHOR_BONUS else 0)
      let s := s + (if isInCCRegion c description then cfg.CC_PENALTY else 0)
      { m with score := s }
    | none => m

/-- Token count of a match's stored variant text. -/
def matchTokens (m : Match) : Nat := (splitWS m.candidate).length

/-- `Disambiguator._prefer_compound_names`, functionally: within each
user's group of matches, the earliest match of maximal token count is the
group's top; when it has at least 3 tokens it gains `+2` for every other
group member with exactly 2 tokens scoring at least `FUZZY_ACCEPT`.  The
list order is unchanged (the source mutates scores in place). -/
def preferCompound (cfg : Config) (ms : List Match) : List Match :=
  (ms.enum).map fun (i, m) =>
    let group := ms.enum.filter fun p => p.2.userId = m.userId
    if group.length > 1 then
      let maxCount := group.foldl (fun acc p => max acc (matchTokens p.2)) 0
      let isTop :=
        match group.find? (fun p => matchTokens p.2 = maxCount) with
        | some (j, _) => decide (j = i)
        | none => false
      if isTop && decide (maxCount ≥ 3) then
        let boosts := (group.filter fun p =>
          p.1 ≠ i ∧ matchTokens p.2 = 2 ∧ p.2.score ≥ cfg.FUZZY_ACCEPT).length
        { m with score := m.score + 2 * boosts }
      else m
    else m

/-- Python `<` on strings: lexicographic comparison by code point. -/
def listCharLt : List Char → List Char → Bool
  | [], [] => false
  | [], _ :: _ => true
  | _ :: _, [] => false
  | a :: as, b :: bs =>
    if a.toNat < b.toNat then true
    else if a = b then listCharLt as bs
    else false

/-- The final ordering of `disambiguate`: `sort(key=lambda x: (x['score'],
x['user_id']), reverse=True)` — score descending, then user id descending. -/
def disBefore (a b : Match) : Bool :=
  decide (b.score < a.score) ||
  (decide (a.score = b.score) && listCharLt b.userId a.userId)

/-- `Disambiguator.disambiguate`: anchor/CC adjustments, compound-name
preference, clamp into `[0, 100]`, final sort. -/
def disambiguate (cfg : Config) (ms : List Match) (cands : List Candidate)
    (description : List Char) : List Match :=
  if ms = [] then []
  else
    let stage1 := anchorCCStage cfg cands description ms
    let stage2 := preferCompound cfg stage1
    let stage3 := stage2.map fun m => { m with score := min 100 (max 0 m.score) }
    stableSortBy disBefore stage3

/-! ## The route (`app/routes/match_users.py`) -/

/-- One entry of the response's `users` list. -/
structure OutUser where
  id : List Char
  name : List Char
  matchMetric : ℚ
  method : String
deriving DecidableEq, Repr

/-- The route's response: `{"error": "Transaction not found"}` or
`{"users": [...], "total_number_of_matches": n}`. -/
inductive MatchResult where
  | error : MatchResult
  | ok : List OutUser → Nat → MatchResult
deriving DecidableEq, Repr

/-- Round half to even on `ℚ` (Python's `round` on a float whose value is
exactly representable). -/
def roundHalfEvenInt (q : ℚ) : ℤ :=
  let f := ⌊q⌋
  let r := q - (f : ℚ)
  if r < 1 / 2 then f
  else if 1 / 2 < r then f + 1
  else if f % 2 = 0 then f else f + 1

/-- `round(x, 2)`. -/
def round2 (q : ℚ) : ℚ := (roundHalfEvenInt (q * 100) : ℚ) / 100

/-- `max(scores)` of a nonempty Python list, with a default for the guarded
empty case. -/
def maxQ (dflt : ℚ) : List ℚ → ℚ
  | [] => dflt
  | x :: xs => xs.foldl max x

/-- Steps 2–3 of `match_users`: extraction from the soft-cleaned text, the
hard-cleaned retry, and the short-circuit empty return (`none`) when the
retry found nothing and the hard-cleaned text has fewer than two tokens. -/
def pipelineCandidates (cfg : Config) (description : List Char) :
    Option (List Candidate) :=
  let softCleaned := softClean (some cfg.MAX_DESCRIPTION_LENGTH) description
  let cands := extractCandidates softCleaned cfg.MAX_CANDIDATES
  if cands ≠ [] then some cands
  else
    let hardCleaned := hardClean (some cfg.MAX_DESCRIPTION_LENGTH) description
    let cands2 := extractCandidates hardCleaned cfg.MAX_CANDIDATES
    if cands2 = [] ∧ (splitWS hardCleaned).length < 2 then none
    else some cands2

/-- Steps 5–6 of `match_users`: fuzzy scoring and the threshold-gated
embedding fallback; returns the chosen `method` string together with the
chosen match list. -/
def chooseMethod (cfg : Config) (baseScoreFn : List Char → List Char → ℚ)
    (encode : List (List Char) → Option (List (List ℚ)))
    (users : List UserRecord) (description : List Char)
    (allVariants : List (List Char)) : String × List Match :=
  let fuzzyMatches :=
    fuzzyMatch cfg baseScoreFn allVariants users cfg.FUZZY_ACCEPT description
  let topScore := maxQ 0 (fuzzyMatches.map (·.score))
  if fuzzyMatches = [] ∨ topScore < cfg.FUZZY_ACCEPT then
    let embMatches := embeddingMatch encode allVariants users cfg.EMB_ACCEPT
    if embMatches ≠ [] then
      let embTop := maxQ 0 (embMatches.map fun m => m.cosineSim.getD 0)
      if embTop ≥ cfg.EMB_ACCEPT then ("embedding", embMatches)
      else ("fuzzy", fuzzyMatches)
    else ("fuzzy", fuzzyMatches)
  else ("fuzzy", fuzzyMatches)

/-- Steps 5–8 of `match_users`, given the candidates and their generated
variant lists: fuzzy scoring, the threshold-gated embedding fallback,
disambiguation, truncation to top-K and formatting. -/
def matchUsersCore (cfg : Config) (baseScoreFn : List Char → List Char → ℚ)
    (encode : List (List Char) → Option (List (List ℚ)))
    (users : List UserRecord) (description : List Char)
    (candidates : List Candidate) (variantLists : List (List (List Char))) :
    MatchResult :=
  let method2 :=
    chooseMethod cfg baseScoreFn encode users description variantLists.flatten
  if method2.2 = [] then .ok [] 0
  else
    let dis := disambiguate cfg method2.2 candidates description
    let top := dis.take cfg.getTopK
    let results := top.map fun m =>
      OutUser.mk m.userId m.userName (round2 m.score) method2.1
    .ok results results.length

/-- `match_users`: transaction lookup, cleaning, extraction, variant
generation (`ord` is the set-enumeration order, see `generateVariants`),
then `matchUsersCore`. -/
def matchUsers (cfg : Config) (ord : List (List Char) → List (List Char))
    (baseScoreFn : List Char → List Char → ℚ)
    (encode : List (List Char) → Option (List (List ℚ)))
    (transactionId : List Char) (transactions : List (List Char × List Char))
    (users : List UserRecord) : MatchResult :=
  match transactions.find? (fun t => t.1 = transactionId) with
  | none => .error
  | some t =>
    let description := t.2
    if description = [] then .ok [] 0
    else
      let allUserTokens := (users.map (·.tokens)).flatten
      match pipelineCandidates cfg description with
      | none => .ok [] 0
      | some candidates =>
        let variantLists := candidates.map fun c =>
          generateVariants ord allUserTokens (normalizeCandidate c.text)
            cfg.MAX_VARIANTS_PER_CANDIDATE
        matchUsersCore cfg baseScoreFn encode users description candidates variantLists

/-! ## A concrete scenario used by witnesses and the determinism
counterexample: a transaction `"from xaq ybq"`, two users whose normalized
names are empty (so the fuzzy matcher skips them and its metric is never
evaluated) carrying orthogonal unit embeddings, and an encoder mapping the
two variants of the single candidate to those two vectors. -/

def userXa : UserRecord := ⟨"u1".data, "U One".data, [], [], [], some [1, 0]⟩

def userYb : UserRecord := ⟨"u2".data, "U Two".data, [], [], [], some [0, 1]⟩

def encodeXY : List (List Char) → Option (List (List ℚ)) := fun ts =>
  some (ts.map fun s =>
    if s = "xaq ybq".data then [1, 0]
    else if s = "ybq xaq".data then [0, 1]
    else [1, 0])

def txsXY : List (List Char × List Char) := [("t1".data, "from xaq ybq".data)]

/-- The metric parameter for runs in which the fuzzy matcher never scores a
pair (both users have an empty normalized name). -/
def zeroMetric : List Char → List Char → ℚ := fun _ _ => 0

/-- The candidate list the route works with, as a function of the request:
empty on the error and empty-description paths. -/
def routeCandidates (cfg : Config) (tid : List Char)
    (txs : List (List Char × List Char)) : List Candidate :=
  match txs.find? (fun t => t.1 = tid) with
  | none => []
  | some t => if t.2 = [] then [] else (pipelineCandidates cfg t.2).getD []

/-- Size of the insertion-ordered variant set of a candidate. -/
def insertionCount (userTokens : List (List Char)) (candidate : List Char) : Nat :=
  match variantParts userTokens candidate with
  | none => 0
  | some (vs, _) => vs.length

/-! ## Generic lemmas about the sorting and dedup loops -/

theorem mem_stableInsert (before : α → α → Bool) (x a : α) (l : List α) :
    a ∈ stableInsert before x l ↔ a = x ∨ a ∈ l := by
  induction l with
  | nil => simp [stableInsert]
  | cons y ys ih =>
    simp only [stableInsert]
    cases h : before x y
    · simp [List.mem_cons, ih]
      tauto
    · simp [List.mem_cons, ih]

theorem pairwise_stableInsert (before : α → α → Bool)
    (hirr : ∀ a, before a a = false)
    (htrans : ∀ a b c, before a b = true → before b c = true → before a c = true)
    (x : α) (l : List α) (hl : l.Pairwise fun a b => before b a = false) :
    (stableInsert before x l).Pairwise fun a b => before b a = false := by
  induction l with
  | nil => simp [stableInsert]
  | cons y ys ih =>
    rcases List.pairwise_cons.mp hl with ⟨hy, hys⟩
    simp only [stableInsert]
    by_cases h : before x y = true
    · rw [if_pos h]
      refine List.pairwise_cons.mpr ⟨?_, hl⟩
      intro z hz
      rcases List.mem_cons.mp hz with rfl | hz2
      · by_contra hc
        have hc2 : before z x = true := by
          cases hbx : before z x with
          | false => exact absurd hbx hc
          | true => rfl
        have := htrans z x z hc2 h
        rw [hirr z] at this
        exact Bool.false_ne_true this
      · by_contra hc
        have hc2 : before z x = true := by
          cases hbx : before z x with
          | false => exact absurd hbx hc
          | true => rfl
        have h3 := htrans z x y hc2 h
        rw [hy z hz2] at h3
        exact Bool.false_ne_true h3
    · rw [if_neg h]
      refine List.pairwise_cons.mpr ⟨?_, ih hys⟩
      intro z hz
      rcases (mem_stableInsert before x z ys).mp hz with rfl | hz2
      · cases hxy : before z y with
        | false => rfl
        | true => exact absurd hxy h
      · exact hy z hz2

theorem pairwise_stableSortBy (before : α → α → Bool)
    (hirr : ∀ a, before a a = false)
    (htrans : ∀ a b c, before a b = true → before b c = true → before a c = true)
    (l : List α) :
    (stableSortBy before l).Pairwise fun a b => before b a = false := by
  have main : ∀ (l acc : List α), acc.Pairwise (fun a b => before b a = false) →
      (List.foldl (fun acc x => stableInsert before x acc) acc l).Pairwise
        (fun a b => before b a = false) := by
    intro l
    induction l with
    | nil => exact fun acc h => h
    | cons x xs ih =>
      intro acc h
      exact ih _ (pairwise_stableInsert before hirr htrans x acc h)
  exact main l [] List.Pairwise.nil

theorem mem_stableSortBy (before : α → α → Bool) (a : α) (l : List α) :
    a ∈ stableSortBy before l ↔ a ∈ l := by
  have main : ∀ (l acc : List α),
      (a ∈ List.foldl (fun acc x => stableInsert before x acc) acc l ↔ a ∈ acc ∨ a ∈ l) := by
    intro l
    induction l with
    | nil => simp
    | cons x xs ih =>
      intro acc
      simp only [List.foldl_cons, ih, mem_stableInsert, List.mem_cons]
      tauto
  simpa using main l []

theorem dedupTake_sublist (maxC : Nat) :
    ∀ (l : List Candidate) (seen : List (List Char)) (k : Nat),
      (dedupTake maxC seen k l).Sublist l := by
  intro l
  induction l with
  | nil => intro seen k; simp [dedupTake]
  | cons c cs ih =>
    intro seen k
    simp only [dedupTake]
    split_ifs with h1 h2
    · exact (List.nil_sublist cs).cons₂ c
    · exact (ih _ _).cons₂ c
    · exact (ih _ _).cons c

theorem dedupTake_length (maxC : Nat) :
    ∀ (l : List Candidate) (seen : List (List Char)) (k : Nat), k < maxC →
      (dedupTake maxC seen k l).length ≤ maxC - k := by
  intro l
  induction l with
  | nil => intro seen k hk; simp [dedupTake]
  | cons c cs ih =>
    intro seen k hk
    simp only [dedupTake]
    split_ifs with h1 h2
    · simp only [List.length_singleton]
      omega
    · simp only [List.length_cons]
      have := ih (trimWS (pyLowerList c.text) :: seen) (k + 1) (by omega)
      omega
    · exact ih seen k hk

theorem candBefore_irrefl (a : Candidate) : candBefore a a = false := by
  simp [candBefore]

theorem candBefore_trans (a b c : Candidate) (h1 : candBefore a b = true)
    (h2 : candBefore b c = true) : candBefore a c = true := by
  simp only [candBefore, Bool.or_eq_true, Bool.and_eq_true, decide_eq_true_eq] at h1 h2 ⊢
  omega

theorem candBefore_false_imp {a b : Candidate} (h : candBefore b a = false) :
    b.priority < a.priority ∨
      (a.priority = b.priority ∧ a.text.length ≤ b.text.length) := by
  by_cases h1 : a.priority < b.priority
  · exfalso
    have ht : candBefore b a = true := by simp [candBefore, h1]
    rw [h] at ht
    exact Bool.false_ne_true ht
  · by_cases h2 : b.priority < a.priority
    · exact Or.inl h2
    · have hpe : a.priority = b.priority := by omega
      by_cases h3 : a.text.length ≤ b.text.length
      · exact Or.inr ⟨hpe, h3⟩
      · exfalso
        have ht : candBefore b a = true := by
          simp only [candBefore, Bool.or_eq_true, Bool.and_eq_true, decide_eq_true_eq]
          omega
        rw [h] at ht
        exact Bool.false_ne_true ht

/-- C2, counterexample.  On `"from ab cd, from ab cd ef"` the `from` pass
yields two priority-3 candidates, and the returned order puts the *shorter*
text first: the sort key `(c.priority, -len(c.text))` combined with
`reverse=True` orders equal-priority candidates by text length ascending,
not descending as claimed. -/
theorem extract_candidates_length_order_counterexample :
    extractCandidates "from ab cd, from ab cd ef".data 5 =
      [⟨"ab cd".data, "from", 3⟩, ⟨"ab cd ef".data, "from", 3⟩] ∧
    ("ab cd".data).length < ("ab cd ef".data).length := by
  with_unfolding_all decide

/-- C2 (amended): after pooling and post-filtering, candidates are sorted by
priority descending and then by text length *ascending*, deduplicated by
case-insensitive text, and at most `max_candidates` are kept (the cap is
positive in every caller); in particular, of two surviving candidates of
equal priority the shorter text precedes the longer. -/
theorem extract_candidates_order (text : List Char) (mc : Nat) :
    (extractCandidates text mc).Pairwise
      (fun a b => b.priority < a.priority ∨
        (a.priority = b.priority ∧ a.text.length ≤ b.text.length)) ∧
    (0 < mc → (extractCandidates text mc).length ≤ mc) := by
  constructor
  · have hp := pairwise_stableSortBy candBefore candBefore_irrefl candBefore_trans
      (postFilterCandidates
        (let pooled :=
          candidatesOfGroups "from" 3 (fromScan (text.length + 1) none text) ++
          candidatesOfGroups "ref" 2 (refScan (text.length + 1) none text) ++
          forDeelCandidates (forDeelScan (text.length + 1) text)
         if pooled = [] then fallbackWindows text else pooled))
    have hsub := dedupTake_sublist mc (stableSortBy candBefore
      (postFilterCandidates
        (let pooled :=
          candidatesOfGroups "from" 3 (fromScan (text.length + 1) none text) ++
          candidatesOfGroups "ref" 2 (refScan (text.length + 1) none text) ++
          forDeelCandidates (forDeelScan (text.length + 1) text)
         if pooled = [] then fallbackWindows text else pooled))) [] 0
    exact (List.Pairwise.sublist hsub hp).imp fun h => candBefore_false_imp h
  · intro hmc
    exact dedupTake_length mc _ [] 0 hmc

/-- C2, witness for the amended theorem at a concrete input. -/
theorem extract_candidates_order_witness :
    (0 < 5) ∧
    (extractCandidates "from ab cd, from ab cd ef".data 5).Pairwise
      (fun a b => b.priority < a.priority ∨
        (a.priority = b.priority ∧ a.text.length ≤ b.text.length)) ∧
    (extractCandidates "from ab cd, from ab cd ef".data 5).length ≤ 5 := by
  refine ⟨by decide, ?_, ?_⟩
  · exact (extract_candidates_order "from ab cd, from ab cd ef".data 5).1
  · exact (extract_candidates_order "from ab cd, from ab cd ef".data 5).2 (by decide)

/-- C7, counterexample.  `BOILERPLATE_PATTERN` contains the two-word phrase
`"to deel"` but not the single word `"to"`, so a standalone `to` token
survives `hard_clean`: on `"payment to alice"` the pattern removes
`payment` yet keeps `to`. -/
theorem hard_clean_keeps_to_counterexample :
    hardClean none "payment to alice".data = "to alice".data ∧
    "to".data ∈ splitWS (softClean none "payment to alice".data) ∧
    "to".data ∈ splitWS (hardClean none "payment to alice".data) := by
  with_unfolding_all decide

/-- C7 (amended): `hard_clean` is `soft_clean` followed by the boilerplate
regex substitution and a whitespace re-collapse and strip; the pattern
removes, as whole tokens, the words from, for, deel, payment, transfer,
received, request, credit, debit, cntr, wise, test and the two-word phrase
`"to deel"` — but not the standalone word `to`, which survives when not
immediately followed by `deel`. -/
theorem hard_clean_boilerplate :
    (∀ (ml : Option Nat) (x : List Char),
      hardClean ml x = trimWS (collapseWS (boilerplateSub (softClean ml x)))) ∧
    hardClean none "xa from yb".data = "xa yb".data ∧
    hardClean none "xa for yb".data = "xa yb".data ∧
    hardClean none "xa deel yb".data = "xa yb".data ∧
    hardClean none "xa payment yb".data = "xa yb".data ∧
    hardClean none "xa transfer yb".data = "xa yb".data ∧
    hardClean none "xa received yb".data = "xa yb".data ∧
    hardClean none "xa request yb".data = "xa yb".data ∧
    hardClean none "xa credit yb".data = "xa yb".data ∧
    hardClean none "xa debit yb".data = "xa yb".data ∧
    hardClean none "xa cntr yb".data = "xa yb".data ∧
    hardClean none "xa wise yb".data = "xa yb".data ∧
    hardClean none "xa test yb".data = "xa yb".data ∧
    hardClean none "xa to deel yb".data = "xa yb".data ∧
    hardClean none "xa to yb".data = "xa to yb".data := by
  refine ⟨?_, ?_⟩
  · intro ml x
    by_cases h : x = []
    · subst h
      rfl
    · simp [hardClean, h]
  · with_unfolding_all decide

/-! ## `str.find` as a least-position search -/

theorem findSub_go_spec (n : List Char) :
    ∀ (hay : List Char) (i k : Nat),
      findSub.go n i hay = some k ↔
        ∃ d, k = i + d ∧ n.isPrefixOf (hay.drop d) = true ∧
          ∀ e, e < d → n.isPrefixOf (hay.drop e) = false := by
  intro hay
  induction hay with
  | nil =>
    intro i k
    rw [findSub.go]
    by_cases h : n.isPrefixOf ([] : List Char) = true
    · rw [if_pos h]
      constructor
      · rintro ⟨rfl⟩
        exact ⟨0, by omega, by simpa using h, by omega⟩
      · rintro ⟨d, rfl, _, hmin⟩
        rcases Nat.eq_zero_or_pos d with rfl | hd
        · rfl
        · have := hmin 0 hd
          simp only [List.drop_nil] at this h
          rw [h] at this
          exact absurd this (by simp)
    · rw [if_neg h]
      constructor
      · rintro ⟨⟩
      · rintro ⟨d, rfl, hpre, _⟩
        simp only [List.drop_nil] at hpre
        simp only [List.drop_nil] at h
        exact absurd hpre h
  | cons c t ih =>
    intro i k
    rw [findSub.go]
    by_cases h : n.isPrefixOf (c :: t) = true
    · rw [if_pos h]
      constructor
      · rintro ⟨rfl⟩
        exact ⟨0, by omega, by simpa using h, by omega⟩
      · rintro ⟨d, rfl, _, hmin⟩
        rcases Nat.eq_zero_or_pos d with rfl | hd
        · rfl
        · have h0 := hmin 0 hd
          simp only [List.drop_zero] at h0
          rw [h] at h0
          exact absurd h0 (by simp)
    · rw [if_neg h]
      rw [ih (i + 1) k]
      constructor
      · rintro ⟨d, rfl, hpre, hmin⟩
        refine ⟨d + 1, by omega, by simpa using hpre, ?_⟩
        intro e he
        cases e with
        | zero =>
          simp only [List.drop_zero]
          cases hn : n.isPrefixOf (c :: t) with
          | false => rfl
          | true => exact absurd hn h
        | succ e2 =>
          have := hmin e2 (by omega)
          simpa using this
      · rintro ⟨d, hk, hpre, hmin⟩
        cases d with
        | zero =>
          exfalso
          simp only [List.drop_zero] at hpre
          exact h hpre
        | succ d2 =>
          refine ⟨d2, by omega, by simpa using hpre, ?_⟩
          intro e he
          have := hmin (e + 1) (by omega)
          simpa using this

/-- `str.find` returns the least index at which the needle occurs. -/
theorem findSub_spec (n h : List Char) (k : Nat) :
    findSub n h = some k ↔
      n <+: h.drop k ∧ ∀ j, j < k → ¬ n <+: h.drop j := by
  rw [findSub, findSub_go_spec]
  constructor
  · rintro ⟨d, rfl, hpre, hmin⟩
    refine ⟨List.isPrefixOf_iff_prefix.mp (by simpa using hpre), ?_⟩
    intro j hj hc
    have := hmin j (by omega)
    rw [List.isPrefixOf_iff_prefix.mpr hc] at this
    exact absurd this (by simp)
  · rintro ⟨hpre, hmin⟩
    refine ⟨k, by omega, List.isPrefixOf_iff_prefix.mpr hpre, ?_⟩
    intro e he
    cases hn : n.isPrefixOf (h.drop e) with
    | false => rfl
    | true => exact absurd (List.isPrefixOf_iff_prefix.mp hn) (hmin e he)

/-- C3, counterexample.  The description `"account emma brown"` contains no
standalone `cc` token (the `\bcc\b` finder of the disambiguator confirms
this), yet the fuzzy matcher's CC penalty fires, because its gate is the
plain substring test `'cc' in description_lower`, which the `cc` inside
`account` satisfies: the adjusted score is `80 + CC_PENALTY = 72`, not
`80`. -/
theorem cc_penalty_substring_counterexample :
    ccTokenPositions (pyLowerList "account emma brown".data) = [] ∧
    applyBonusesPenalties defaultConfig 80 "emma brown".data
      ⟨"u1".data, "Zed Q".data, "zed q".data, ["zz".data], "Q".data, none⟩
      "account emma brown".data = 72 := by
  with_unfolding_all decide

/-- C3 (amended): the CC penalty is added iff the description contains
`"cc"` as a plain substring (also inside a longer word) and the first
occurrence of the variant text starts after the first occurrence of `"cc"`
and within 100 characters of it; the ERR penalty is added iff an `err#` or
`err #` substring occurs; both penalties and all bonuses are additive on
top of the base score, and the bonuses do not depend on the description. -/
theorem cc_err_penalty_characterization (cfg : Config) (base : ℚ)
    (cand : List Char) (user : UserRecord) (desc : List Char)
    (htok : user.tokens ≠ []) :
    (applyBonusesPenalties cfg base cand user desc =
      applyBonusesPenalties cfg base cand user [] +
      (if ccPenaltyFires desc cand then cfg.CC_PENALTY else 0) +
      (if errPenaltyFires desc then cfg.ERR_PENALTY else 0)) ∧
    (ccPenaltyFires desc cand = true ↔
      ∃ i j, ("cc".data <+: (pyLowerList desc).drop i ∧
          ∀ i2, i2 < i → ¬ "cc".data <+: (pyLowerList desc).drop i2) ∧
        (pyLowerList cand <+: (pyLowerList desc).drop j ∧
          ∀ j2, j2 < j → ¬ pyLowerList cand <+: (pyLowerList desc).drop j2) ∧
        i < j ∧ j < i + 100) := by
  constructor
  · have hcc0 : ccPenaltyFires [] cand = false := rfl
    have herr0 : errPenaltyFires [] = false := rfl
    simp only [applyBonusesPenalties, if_neg htok, hcc0, herr0]
    simp only [Bool.false_eq_true, if_false]
    ring
  · simp only [ccPenaltyFires]
    cases hf : findSub "cc".data (pyLowerList desc) with
    | none =>
      simp only [Bool.false_eq_true, false_iff]
      rintro ⟨i, j, ⟨hpre, hmin⟩, _, _⟩
      have : findSub "cc".data (pyLowerList desc) = some i :=
        (findSub_spec _ _ _).mpr ⟨hpre, fun j2 hj2 => hmin j2 hj2⟩
      rw [hf] at this
      exact absurd this (by simp)
    | some ccPos =>
      cases hg : findSub (pyLowerList cand) (pyLowerList desc) with
      | none =>
        simp only [Bool.false_eq_true, false_iff]
        rintro ⟨i, j, _, ⟨hpre, hmin⟩, _⟩
        have : findSub (pyLowerList cand) (pyLowerList desc) = some j :=
          (findSub_spec _ _ _).mpr ⟨hpre, fun j2 hj2 => hmin j2 hj2⟩
        rw [hg] at this
        exact absurd this (by simp)
      | some cp =>
        simp only [Bool.and_eq_true, decide_eq_true_eq]
        constructor
        · rintro ⟨h1, h2⟩
          have hs1 := (findSub_spec _ _ _).mp hf
          have hs2 := (findSub_spec _ _ _).mp hg
          exact ⟨ccPos, cp, ⟨hs1.1, fun i2 hi2 => hs1.2 i2 hi2⟩,
            ⟨hs2.1, fun j2 hj2 => hs2.2 j2 hj2⟩, h1, h2⟩
        · rintro ⟨i, j, hi, hj, hij, hw⟩
          have h1 : findSub "cc".data (pyLowerList desc) = some i :=
            (findSub_spec _ _ _).mpr ⟨hi.1, hi.2⟩
          have h2 : findSub (pyLowerList cand) (pyLowerList desc) = some j :=
            (findSub_spec _ _ _).mpr ⟨hj.1, hj.2⟩
          rw [hf] at h1
          rw [hg] at h2
          cases h1
          cases h2
          exact ⟨hij, hw⟩

/-- C3, witness for the amended theorem at a concrete input. -/
theorem cc_err_penalty_characterization_witness :
    (["zz".data] : List (List Char)) ≠ [] ∧
    (applyBonusesPenalties defaultConfig 80 "emma brown".data
        ⟨"u1".data, "Zed Q".data, "zed q".data, ["zz".data], "Q".data, none⟩
        "account emma brown".data =
      applyBonusesPenalties defaultConfig 80 "emma brown".data
        ⟨"u1".data, "Zed Q".data, "zed q".data, ["zz".data], "Q".data, none⟩ [] +
      (if ccPenaltyFires "account emma brown".data "emma brown".data
        then defaultConfig.CC_PENALTY else 0) +
      (if errPenaltyFires "account emma brown".data
        then defaultConfig.ERR_PENALTY else 0)) := by
  refine ⟨by decide, ?_⟩
  exact (cc_err_penalty_characterization defaultConfig 80 "emma brown".data
    ⟨"u1".data, "Zed Q".data, "zed q".data, ["zz".data], "Q".data, none⟩
    "account emma brown".data (by decide)).1

/-- C4, counterexample.  The first variant `"杨陈"` has non-Latin characters
and the transliteration `"yang chen"`; the encoder maps them to orthogonal
unit vectors, and the user's embedding equals the transliteration's vector
(cosine 1, far above the 0.75 threshold).  The claim says the user then
qualifies through the transliteration — but `embedding_match` returns no
match at all, because only `candidate_embeddings[0]` (the raw non-Latin
text's vector, cosine 0 against the user) is ever compared. -/
theorem embedding_translit_unused_counterexample :
    hasNonLatinChars "杨陈".data = true ∧
    getTransliteration "杨陈".data = some "yang chen".data ∧
    embeddingTexts "杨陈".data = ["杨陈".data, "yang chen".data] ∧
    dotQ (normVec [0, 1]) (normVec [0, 1]) ≥ (3 : ℚ) / 4 ∧
    embeddingMatch
      (fun ts => some (ts.map fun s => if s = "yang chen".data then [0, 1] else [1, 0]))
      ["杨陈".data]
      [⟨"u1".data, "Yang Chen".data, "yang chen".data,
        ["yang".data, "chen".data], "YC".data, some [0, 1]⟩]
      (3 / 4) = [] := by
  refine ⟨by decide, by decide, by decide, ?_, ?_⟩
  · with_unfolding_all decide
  · with_unfolding_all decide

/-- C4 (amended): `embedding_match` embeds the first variant together with
its transliteration (when one applies), but compares only the first
returned embedding against the users; the result is unchanged when the
encoder's output is truncated to its first vector, so no user can qualify
through the transliteration's embedding. -/
theorem embedding_match_first_embedding_only
    (encode : List (List Char) → Option (List (List ℚ)))
    (variants : List (List Char)) (users : List UserRecord) (threshold : ℚ) :
    embeddingMatch encode variants users threshold =
      embeddingMatch (fun ts => (encode ts).map (fun ls => ls.take 1))
        variants users threshold := by
  cases variants with
  | nil => rfl
  | cons best rest =>
    simp only [embeddingMatch]
    cases he : encode (embeddingTexts best) with
    | none => rfl
    | some ls =>
      cases ls with
      | nil => rfl
      | cons e0 ls2 => rfl

theorem candidateLookup_eq_getLast_filter (cands : List Candidate) (key : List Char) :
    candidateLookup cands key =
      (cands.filter fun c => pyLowerList c.text = key).getLast? := by
  rw [candidateLookup]
  exact (List.filter_getLast? _ _).symm

/-- C5, counterexample.  The only candidate is `"emma brown"` with the
primary anchor `from`; the match at hand was produced from the *derived*
(reversed-order) variant `"brown emma"` of that candidate — the variant is
in the candidate's generated variant set — yet `disambiguate` leaves its
score at 80: the bonus lookup keys on the variant text, which does not
equal any candidate text, so no `ANCHOR_BONUS` is added. -/
theorem anchor_bonus_derived_variant_counterexample :
    primaryAnchor [⟨"emma brown".data, "from", 3⟩] = "from" ∧
    "brown emma".data ∈ generateVariants id [] "emma brown".data 8 ∧
    disambiguate defaultConfig
      [⟨"u1".data, "Emma Brown".data, 80, "brown emma".data, some 80, none⟩]
      [⟨"emma brown".data, "from", 3⟩]
      "from emma brown".data =
      [⟨"u1".data, "Emma Brown".data, 80, "brown emma".data, some 80, none⟩] := by
  refine ⟨by decide, by decide, ?_⟩
  with_unfolding_all decide

/-- C5 (amended): in the disambiguator's anchor/CC pass, each match is
looked up by its (lowercased) variant text in a dictionary keyed by the
candidates' lowercased texts (later candidates win collisions); only on a
hit — i.e. only when the variant text coincides with some candidate's own
text — are the anchor bonus (if that candidate carries the primary anchor)
and the CC-region penalty applied; a match produced from a derived variant
whose text differs from every candidate's text is returned unchanged. -/
theorem anchor_cc_stage_characterization (cfg : Config) (cands : List Candidate)
    (desc : List Char) (ms : List Match) :
    anchorCCStage cfg cands desc ms = ms.map fun m =>
      match (cands.filter fun c => pyLowerList c.text = pyLowerList m.candidate).getLast? with
      | some c =>
        { m with score := m.score +
            ((if c.anchor = primaryAnchor cands then cfg.ANCHOR_BONUS else 0) +
             (if isInCCRegion c desc then cfg.CC_PENALTY else 0)) }
      | none => m := by
  simp only [anchorCCStage]
  refine List.map_congr_left fun m _ => ?_
  rw [candidateLookup_eq_getLast_filter]
  cases (cands.filter fun c => pyLowerList c.text = pyLowerList m.candidate).getLast? with
  | some c =>
    simp only []
    rw [add_assoc]
  | none => rfl

theorem find?_range'_some (f : Nat → Bool) :
    ∀ (n s p : Nat), (List.range' s n).find? f = some p →
      s ≤ p ∧ p < s + n ∧ f p = true ∧ ∀ q, s ≤ q → q < p → f q = false := by
  intro n
  induction n with
  | zero => intro s p h; simp [List.range'] at h
  | succ n ih =>
    intro s p h
    rw [List.range'] at h
    rw [List.find?] at h
    cases hf : f s with
    | true =>
      rw [hf] at h
      simp only [Option.some.injEq] at h
      subst h
      exact ⟨le_refl _, by omega, hf, by omega⟩
    | false =>
      rw [hf] at h
      simp only at h
      obtain ⟨h1, h2, h3, h4⟩ := ih (s + 1) p h
      refine ⟨by omega, by omega, h3, ?_⟩
      intro q hq1 hq2
      rcases Nat.eq_or_lt_of_le hq1 with rfl | hlt
      · exact hf
      · exact h4 q hlt hq2

theorem find?_range'_none (f : Nat → Bool) (n s : Nat)
    (h : (List.range' s n).find? f = none) :
    ∀ p, s ≤ p → p < s + n → f p = false := by
  intro p hp1 hp2
  have hmem : p ∈ List.range' s n := by
    rw [List.mem_range']
    exact ⟨p - s, by omega, by omega⟩
  have := List.find?_eq_none.mp h p hmem
  cases hf : f p with
  | true => exact absurd hf this
  | false => rfl

theorem splitWS_go_single :
    ∀ (tok cur : List Char), (∀ c ∈ tok, isSpaceChar c = false) →
      (cur ≠ [] ∨ tok ≠ []) → splitWS.go cur tok = [cur.reverse ++ tok] := by
  intro tok
  induction tok with
  | nil =>
    intro cur _ hne
    rcases hne with hne | hne
    · simp [splitWS.go, hne]
    · exact absurd rfl hne
  | cons c cs ih =>
    intro cur hns _
    rw [splitWS.go]
    have hc : isSpaceChar c = false := hns c (List.mem_cons_self c cs)
    rw [hc]
    simp only [Bool.false_eq_true, if_false]
    rw [ih (c :: cur) (fun x hx => hns x (List.mem_cons_of_mem c hx)) (Or.inl (by simp))]
    simp

theorem splitWS_single (tok : List Char) (hne : tok ≠ [])
    (hns : ∀ c ∈ tok, isSpaceChar c = false) : splitWS tok = [tok] := by
  rw [splitWS]
  rw [splitWS_go_single tok [] hns (Or.inr hne)]
  simp

/-- C8: `_try_split_token` scans split positions `range(3, len(token) - 2)`
left to right (i.e. positions `p` with `3 ≤ p` and `p + 2 < len`) and
returns, at the *first* position whose two halves are each in the
known-tokens dictionary raw or capitalized, the pair of raw halves; when no
position qualifies it returns nothing; and `_split_glued_words` never splits
a token of length 6 or less. -/
theorem try_split_token_spec :
    (∀ (D : List (List Char)) (tok : List Char) (parts : List (List Char)),
      trySplitToken D tok = some parts →
      ∃ p, 3 ≤ p ∧ p + 2 < tok.length ∧ splitAcceptable D tok p = true ∧
        (∀ q, 3 ≤ q → q < p → splitAcceptable D tok q = false) ∧
        parts = [tok.take p, tok.drop p]) ∧
    (∀ (D : List (List Char)) (tok : List Char),
      trySplitToken D tok = none →
      ∀ p, 3 ≤ p → p + 2 < tok.length → splitAcceptable D tok p = false) ∧
    (∀ (D : List (List Char)) (tok : List Char), tok.length ≤ 6 → tok ≠ [] →
      (∀ c ∈ tok, isSpaceChar c = false) → splitGluedWords D tok = tok) := by
  refine ⟨?_, ?_, ?_⟩
  · intro D tok parts h
    rw [trySplitToken] at h
    by_cases hD : D = []
    · rw [if_pos hD] at h
      exact absurd h (by simp)
    · rw [if_neg hD] at h
      cases hf : (List.range' 3 (tok.length - 5)).find? (splitAcceptable D tok) with
      | none => rw [hf] at h; exact absurd h (by simp)
      | some p =>
        rw [hf] at h
        simp only [Option.some.injEq] at h
        obtain ⟨h1, h2, h3, h4⟩ := find?_range'_some _ _ _ _ hf
        have hlen : 5 ≤ tok.length := by
          by_contra hc
          have : tok.length - 5 = 0 := by omega
          rw [this] at hf
          simp [List.range'] at hf
        exact ⟨p, h1, by omega, h3, fun q hq1 hq2 => h4 q hq1 hq2, h.symm⟩
  · intro D tok h p hp1 hp2
    rw [trySplitToken] at h
    by_cases hD : D = []
    · subst hD
      simp [splitAcceptable]
    · rw [if_neg hD] at h
      cases hf : (List.range' 3 (tok.length - 5)).find? (splitAcceptable D tok) with
      | none => exact find?_range'_none _ _ _ hf p hp1 (by omega)
      | some q => rw [hf] at h; exact absurd h (by simp)
  · intro D tok hlen hne hns
    rw [splitGluedWords]
    by_cases hD : D = []
    · rw [if_pos hD]
    · rw [if_neg hD]
      rw [splitWS_single tok hne hns]
      have : ¬ tok.length > 6 := by omega
      simp only [List.map_cons, List.map_nil, this, if_false]
      simp [joinSpace]

/-- C8, witness: on the glued token `matthewbrooks` with dictionary
`{matthew, brooks}` the returned split is at the first acceptable position,
and a 3-character token is never split. -/
theorem try_split_token_spec_witness :
    (∃ p, 3 ≤ p ∧ p + 2 < ("matthewbrooks".data).length ∧
      splitAcceptable ["matthew".data, "brooks".data] "matthewbrooks".data p = true ∧
      (∀ q, 3 ≤ q → q < p →
        splitAcceptable ["matthew".data, "brooks".data] "matthewbrooks".data q = false) ∧
      ["matthew".data, "brooks".data] =
        [("matthewbrooks".data).take p, ("matthewbrooks".data).drop p]) ∧
    splitGluedWords ["xq".data] "abc".data = "abc".data := by
  constructor
  · exact try_split_token_spec.1 ["matthew".data, "brooks".data] "matthewbrooks".data
      ["matthew".data, "brooks".data] (by decide)
  · exact try_split_token_spec.2.2 ["xq".data] "abc".data (by decide) (by decide) (by decide)

/-! ## Output bounds and shape of the route -/

theorem disambiguate_score_bounds (cfg : Config) (ms : List Match)
    (cands : List Candidate) (desc : List Char) :
    ∀ m ∈ disambiguate cfg ms cands desc, 0 ≤ m.score ∧ m.score ≤ 100 := by
  intro m hm
  rw [disambiguate] at hm
  by_cases h : ms = []
  · rw [if_pos h] at hm
    simp at hm
  · rw [if_neg h] at hm
    rw [mem_stableSortBy] at hm
    obtain ⟨m0, _, rfl⟩ := List.mem_map.mp hm
    refine ⟨?_, ?_⟩
    · exact le_min (by norm_num) (le_max_left 0 _)
    · exact min_le_left _ _

theorem roundHalfEvenInt_bounds (x : ℚ) (hx0 : 0 ≤ x) (hx1 : x ≤ 10000) :
    0 ≤ roundHalfEvenInt x ∧ roundHalfEvenInt x ≤ 10000 := by
  have hf0 : 0 ≤ ⌊x⌋ := Int.floor_nonneg.mpr hx0
  have hfx : (⌊x⌋ : ℚ) ≤ x := Int.floor_le x
  have hup : ⌊x⌋ ≤ 10000 := by
    have h1 : ⌊x⌋ ≤ ⌊(10000 : ℚ)⌋ := Int.floor_le_floor hx1
    have h2 : ⌊(10000 : ℚ)⌋ = 10000 := by norm_num
    omega
  rw [roundHalfEvenInt]
  split_ifs with h1 h2 h3
  · exact ⟨hf0, hup⟩
  · refine ⟨by omega, ?_⟩
    have ha : (⌊x⌋ : ℚ) + 1/2 < x := by linarith
    have hb : (⌊x⌋ : ℚ) < 10000 := by linarith
    have hc : ⌊x⌋ < (10000 : ℤ) := by exact_mod_cast hb
    omega
  · exact ⟨hf0, hup⟩
  · refine ⟨by omega, ?_⟩
    have hr : x - ⌊x⌋ = 1/2 := by linarith
    have hb : (⌊x⌋ : ℚ) < 10000 := by linarith
    have hc : ⌊x⌋ < (10000 : ℤ) := by exact_mod_cast hb
    omega

theorem round2_bounds (q : ℚ) (h0 : 0 ≤ q) (h1 : q ≤ 100) :
    0 ≤ round2 q ∧ round2 q ≤ 100 := by
  obtain ⟨ha, hb⟩ := roundHalfEvenInt_bounds (q * 100) (by positivity) (by linarith)
  have ha2 : (0 : ℚ) ≤ (roundHalfEvenInt (q * 100) : ℚ) := by exact_mod_cast ha
  have hb2 : ((roundHalfEvenInt (q * 100)) : ℚ) ≤ 10000 := by exact_mod_cast hb
  rw [round2]
  constructor
  · positivity
  · rw [div_le_iff₀ (by norm_num : (0:ℚ) < 100)]
    linarith

/-- Shape of every successful `matchUsersCore` result: the reported total is
the length of the returned list, the list is capped at top-K, every entry
carries the single chosen method, and every metric is a clamped, rounded
disambiguation score in `[0, 100]`. -/
theorem matchUsersCore_ok_spec (cfg : Config)
    (baseScoreFn : List Char → List Char → ℚ)
    (encode : List (List Char) → Option (List (List ℚ)))
    (users : List UserRecord) (description : List Char)
    (candidates : List Candidate) (variantLists : List (List (List Char)))
    (us : List OutUser) (tot : Nat)
    (h : matchUsersCore cfg baseScoreFn encode users description candidates
        variantLists = .ok us tot) :
    tot = us.length ∧ us.length ≤ cfg.getTopK ∧
    (∀ u1 ∈ us, ∀ u2 ∈ us, u1.method = u2.method) ∧
    (∀ u ∈ us, u.method = "fuzzy" ∨ u.method = "embedding") ∧
    (∀ u ∈ us, 0 ≤ u.matchMetric ∧ u.matchMetric ≤ 100) := by
  have hMcases : (chooseMethod cfg baseScoreFn encode users description
      variantLists.flatten).1 = "fuzzy" ∨
      (chooseMethod cfg baseScoreFn encode users description
        variantLists.flatten).1 = "embedding" := by
    rw [chooseMethod]
    simp only []
    split_ifs <;> simp
  rw [matchUsersCore] at h
  set M := chooseMethod cfg baseScoreFn encode users description variantLists.flatten
    with hM
  simp only [] at h
  split at h
  · injection h with h1 h2
    subst h1
    subst h2
    exact ⟨rfl, by simp, by simp, by simp, by simp⟩
  · injection h with h1 h2
    subst h1
    subst h2
    refine ⟨rfl, ?_, ?_, ?_, ?_⟩
    · rw [List.length_map, List.length_take]
      exact min_le_left _ _
    · intro u1 hu1 u2 hu2
      obtain ⟨m1, _, rfl⟩ := List.mem_map.mp hu1
      obtain ⟨m2, _, rfl⟩ := List.mem_map.mp hu2
      rfl
    · intro u hu
      obtain ⟨m, _, rfl⟩ := List.mem_map.mp hu
      exact hMcases
    · intro u hu
      obtain ⟨m, hm, rfl⟩ := List.mem_map.mp hu
      have hmdis := List.mem_of_mem_take hm
      have hb := disambiguate_score_bounds cfg _ candidates description _ hmdis
      exact round2_bounds m.score hb.1 hb.2

/-- Shape of every `matchUsers` result that is not the not-found error. -/
theorem matchUsers_ok_spec (cfg : Config)
    (ord : List (List Char) → List (List Char))
    (baseScoreFn : List Char → List Char → ℚ)
    (encode : List (List Char) → Option (List (List ℚ)))
    (tid : List Char) (txs : List (List Char × List Char))
    (users : List UserRecord) (us : List OutUser) (tot : Nat)
    (h : matchUsers cfg ord baseScoreFn encode tid txs users = .ok us tot) :
    tot = us.length ∧ us.length ≤ cfg.getTopK ∧
    (∀ u1 ∈ us, ∀ u2 ∈ us, u1.method = u2.method) ∧
    (∀ u ∈ us, u.method = "fuzzy" ∨ u.method = "embedding") ∧
    (∀ u ∈ us, 0 ≤ u.matchMetric ∧ u.matchMetric ≤ 100) := by
  rw [matchUsers] at h
  cases hfind : txs.find? (fun t => t.1 = tid) with
  | none =>
    rw [hfind] at h
    simp at h
  | some t =>
    rw [hfind] at h
    dsimp only [] at h
    by_cases hd : t.2 = []
    · rw [if_pos hd] at h
      injection h with h1 h2
      subst h1
      subst h2
      exact ⟨rfl, by simp, by simp, by simp, by simp⟩
    · rw [if_neg hd] at h
      cases hpc : pipelineCandidates cfg t.2 with
      | none =>
        rw [hpc] at h
        injection h with h1 h2
        subst h1
        subst h2
        exact ⟨rfl, by simp, by simp, by simp, by simp⟩
      | some candidates =>
        rw [hpc] at h
        exact matchUsersCore_ok_spec cfg baseScoreFn encode users t.2 candidates _ us tot h

/-- C1: every match_metric in a non-error `match_users` response lies in
`[0, 100]`: the disambiguator clamps every surfaced score into `[0, 100]`
after all fuzzy, embedding and disambiguation bonuses and penalties, and
the final two-decimal rounding preserves those bounds.  Holds for every
configuration, metric, encoder and set-enumeration order. -/
theorem match_metric_in_unit_range (cfg : Config)
    (ord : List (List Char) → List (List Char))
    (baseScoreFn : List Char → List Char → ℚ)
    (encode : List (List Char) → Option (List (List ℚ)))
    (tid : List Char) (txs : List (List Char × List Char))
    (users : List UserRecord) (us : List OutUser) (tot : Nat)
    (h : matchUsers cfg ord baseScoreFn encode tid txs users = .ok us tot) :
    ∀ u ∈ us, 0 ≤ u.matchMetric ∧ u.matchMetric ≤ 100 :=
  (matchUsers_ok_spec cfg ord baseScoreFn encode tid txs users us tot h).2.2.2.2

/-- C1, witness at a concrete run returning one match with metric 100. -/
theorem match_metric_in_unit_range_witness :
    0 ≤ (OutUser.mk "u1".data "U One".data 100 "embedding").matchMetric ∧
    (OutUser.mk "u1".data "U One".data 100 "embedding").matchMetric ≤ 100 := by
  have h := match_metric_in_unit_range defaultConfig id zeroMetric encodeXY
    "t1".data txsXY [userXa, userYb]
    [OutUser.mk "u1".data "U One".data 100 "embedding"] 1
    (by with_unfolding_all decide)
  exact h _ (by simp)

/-- C10: in every non-error `match_users` response the reported
`total_number_of_matches` equals the length of the returned `users` list
(the total counts the truncated, returned matches, not all matches that
cleared a threshold), both are bounded by the configured top-K maximum
(`get_top_k`, which is 5 in the default configuration), and every entry
carries the same method value, each being `"fuzzy"` or `"embedding"`. -/
theorem total_matches_counts_returned (cfg : Config)
    (ord : List (List Char) → List (List Char))
    (baseScoreFn : List Char → List Char → ℚ)
    (encode : List (List Char) → Option (List (List ℚ)))
    (tid : List Char) (txs : List (List Char × List Char))
    (users : List UserRecord) (us : List OutUser) (tot : Nat)
    (h : matchUsers cfg ord baseScoreFn encode tid txs users = .ok us tot) :
    tot = us.length ∧ us.length ≤ cfg.getTopK ∧ defaultConfig.getTopK = 5 ∧
    (∀ u1 ∈ us, ∀ u2 ∈ us, u1.method = u2.method) ∧
    (∀ u ∈ us, u.method = "fuzzy" ∨ u.method = "embedding") := by
  obtain ⟨h1, h2, h3, h4, _⟩ :=
    matchUsers_ok_spec cfg ord baseScoreFn encode tid txs users us tot h
  exact ⟨h1, h2, rfl, h3, h4⟩

/-- C10, witness at a concrete run returning one match. -/
theorem total_matches_counts_returned_witness :
    (1 = ([OutUser.mk "u1".data "U One".data 100 "embedding"]).length) ∧
    ([OutUser.mk "u1".data "U One".data 100 "embedding"]).length ≤
      defaultConfig.getTopK ∧
    (OutUser.mk "u1".data "U One".data 100 "embedding").method = "embedding" := by
  have h := total_matches_counts_returned defaultConfig id zeroMetric encodeXY
    "t1".data txsXY [userXa, userYb]
    [OutUser.mk "u1".data "U One".data 100 "embedding"] 1
    (by with_unfolding_all decide)
  refine ⟨h.1, h.2.1, ?_⟩
  rcases h.2.2.2.2 (OutUser.mk "u1".data "U One".data 100 "embedding") (by simp)
    with hf | he
  · exact absurd hf (by decide)
  · exact he

/-- C6, counterexample.  Fixing the description `"from xaq ybq"`, the
roster `[userXa, userYb]` and the default configuration, two runs of
`match_users` that differ only in the set-enumeration order of the
candidate's two-element variant set — both orders being permutations of the
same set, as Python guarantees for `list(variants)` under any hash seed —
return different users: the first enumerated variant is the one embedded,
and the two variants embed to orthogonal vectors matching different
users. -/
theorem pipeline_enumeration_order_counterexample :
    (List.reverse ["xaq ybq".data, "ybq xaq".data]).Perm
      ["xaq ybq".data, "ybq xaq".data] ∧
    variantParts [] (normalizeCandidate "xaq ybq".data) =
      some (["xaq ybq".data, "ybq xaq".data], true) ∧
    matchUsers defaultConfig List.reverse zeroMetric encodeXY "t1".data txsXY
      [userXa, userYb] ≠
    matchUsers defaultConfig id zeroMetric encodeXY "t1".data txsXY
      [userXa, userYb] := by
  refine ⟨by decide, by decide, ?_⟩
  with_unfolding_all decide

theorem perm_of_short {α : Type} {l l2 : List α} (h : l2.Perm l)
    (hlen : l.length ≤ 1) : l2 = l := by
  cases l with
  | nil => exact h.eq_nil
  | cons a t =>
    cases t with
    | nil => exact List.perm_singleton.mp h
    | cons b t2 => simp at hlen

theorem generateVariants_ord_eq (ord1 ord2 : List (List Char) → List (List Char))
    (h1 : ∀ l, (ord1 l).Perm l) (h2 : ∀ l, (ord2 l).Perm l)
    (D : List (List Char)) (c : List Char) (m : Nat)
    (hs : insertionCount D c ≤ 1) :
    generateVariants ord1 D c m = generateVariants ord2 D c m := by
  rw [generateVariants, generateVariants]
  rw [insertionCount] at hs
  cases hv : variantParts D c with
  | none => rfl
  | some p =>
    rw [hv] at hs
    obtain ⟨vs, flag⟩ := p
    have e1 : ord1 vs = vs := perm_of_short (h1 vs) hs
    have e2 : ord2 vs = vs := perm_of_short (h2 vs) hs
    cases flag with
    | false =>
      dsimp only []
      rw [e1, e2]
    | true =>
      dsimp only []
      rw [e1, e2]

/-- C6 (amended): `match_users` is a deterministic function of the request
*and* the interpreter's set-enumeration order; with the enumeration order
fixed, two runs coincide, and runs under two different valid enumeration
orders (any permutations of the variant sets) are guaranteed to coincide
only when every candidate's variant set has at most one element.  When a
variant set has two or more elements the enumerated order can change which
variant is embedded first and which variants survive truncation at
`max_variants`, and the output can differ between runs (see the
counterexample). -/
theorem matchUsers_deterministic_fixed_order (cfg : Config)
    (ord1 ord2 : List (List Char) → List (List Char))
    (baseScoreFn : List Char → List Char → ℚ)
    (encode : List (List Char) → Option (List (List ℚ)))
    (tid : List Char) (txs : List (List Char × List Char))
    (users : List UserRecord)
    (h1 : ∀ l, (ord1 l).Perm l) (h2 : ∀ l, (ord2 l).Perm l)
    (hs : ∀ c ∈ routeCandidates cfg tid txs,
      insertionCount ((users.map (·.tokens)).flatten) (normalizeCandidate c.text) ≤ 1) :
    matchUsers cfg ord1 baseScoreFn encode tid txs users =
      matchUsers cfg ord2 baseScoreFn encode tid txs users := by
  rw [matchUsers, matchUsers]
  cases hfind : txs.find? (fun t => t.1 = tid) with
  | none => rfl
  | some t =>
    dsimp only []
    by_cases hd : t.2 = []
    · rw [if_pos hd, if_pos hd]
    · rw [if_neg hd, if_neg hd]
      cases hpc : pipelineCandidates cfg t.2 with
      | none => rfl
      | some candidates =>
        dsimp only []
        have hcands : routeCandidates cfg tid txs = candidates := by
          rw [routeCandidates, hfind]
          dsimp only []
          rw [if_neg hd, hpc]
          rfl
        congr 1
        refine List.map_congr_left fun c hc => ?_
        exact generateVariants_ord_eq ord1 ord2 h1 h2 _ _ _
          (hs c (by rw [hcands]; exact hc))

/-- C6, witness for the amended theorem: on a one-variant candidate the
identity order and the reversing order give identical results. -/
theorem matchUsers_deterministic_fixed_order_witness :
    matchUsers defaultConfig id zeroMetric encodeXY "t1".data
      [("t1".data, "from xaq".data)] [userXa, userYb] =
    matchUsers defaultConfig List.reverse zeroMetric encodeXY "t1".data
      [("t1".data, "from xaq".data)] [userXa, userYb] :=
  matchUsers_deterministic_fixed_order defaultConfig id List.reverse zeroMetric
    encodeXY "t1".data [("t1".data, "from xaq".data)] [userXa, userYb]
    (fun l => List.Perm.refl l) (fun l => List.reverse_perm l)
    (by decide)

/-! ## Character-level lemmas for the idempotence analysis -/

theorem charOfNat_toNat (n : Nat) (h1 : 32 ≤ n) (h2 : n ≤ 122) :
    (Char.ofNat n).toNat = n := by
  have hv : n.isValidChar := Or.inl (by omega)
  simp [Char.ofNat, hv, Char.ofNatAux, Char.toNat, UInt32.toNat, BitVec.toNat_ofNatLt]

theorem pyLowerChar_idem (c : Char) : pyLowerChar (pyLowerChar c) = pyLowerChar c := by
  by_cases h : c.toNat ≥ 65 ∧ c.toNat ≤ 90
  · have h1 : pyLowerChar c = Char.ofNat (c.toNat + 32) := by rw [pyLowerChar, if_pos h]
    have ht : (Char.ofNat (c.toNat + 32)).toNat = c.toNat + 32 :=
      charOfNat_toNat _ (by omega) (by omega)
    rw [h1, pyLowerChar, ht, if_neg (by omega)]
  · have h1 : pyLowerChar c = c := by rw [pyLowerChar, if_neg h]
    rw [h1, h1]

theorem pyLowerChar_ascii (c : Char) (h : c.toNat < 128) :
    (pyLowerChar c).toNat < 128 := by
  rw [pyLowerChar]
  by_cases h2 : c.toNat ≥ 65 ∧ c.toNat ≤ 90
  · rw [if_pos h2, charOfNat_toNat _ (by omega) (by omega)]
    omega
  · rw [if_neg h2]
    exact h

theorem unidecodeList_ascii (l : List Char) (h : ∀ c ∈ l, c.toNat < 128) :
    unidecodeList l = l := by
  induction l with
  | nil => rfl
  | cons c cs ih =>
    have hc : unidecodeChar c = [c] := by
      rw [unidecodeChar, if_pos (h c (List.mem_cons_self c cs))]
    have ht := ih fun x hx => h x (List.mem_cons_of_mem c hx)
    simp only [unidecodeList, List.map_cons, List.flatten_cons] at ht ⊢
    rw [hc, ht]
    rfl

/-! ## Whitespace-canonical forms: `trimWS` and `collapseWS` fixed points -/

theorem dropWhile_of_head_not (p : Char → Bool) (l : List Char)
    (h : ∀ c, l.head? = some c → p c = false) : l.dropWhile p = l := by
  cases l with
  | nil => rfl
  | cons c cs =>
    rw [List.dropWhile_cons, h c rfl]
    simp

theorem dropWhile_fix (p : Char → Bool) (l : List Char) :
    (l.dropWhile p).dropWhile p = l.dropWhile p := by
  apply dropWhile_of_head_not
  intro c hc
  have hh := List.head?_dropWhile_not p l
  rw [hc] at hh
  exact hh

theorem getLast?_of_suffix {w u : List Char} (h : w <:+ u) (hne : w ≠ []) :
    w.getLast? = u.getLast? := by
  obtain ⟨t, rfl⟩ := h
  rw [List.getLast?_append]
  cases hw : w.getLast? with
  | none => exact absurd (List.getLast?_eq_none_iff.mp hw) hne
  | some x => rfl

theorem getLast?_reverse_eq_head? (l : List Char) : l.reverse.getLast? = l.head? := by
  have h := List.head?_reverse l.reverse
  rw [List.reverse_reverse] at h
  exact h.symm

theorem head?_trimWS_not (l : List Char) :
    ∀ c, (trimWS l).head? = some c → isSpaceChar c = false := by
  intro c hc
  rw [trimWS, List.head?_reverse] at hc
  by_cases hw : (l.dropWhile isSpaceChar).reverse.dropWhile isSpaceChar = []
  · rw [hw] at hc
    exact absurd hc (by simp)
  · rw [getLast?_of_suffix (List.dropWhile_suffix isSpaceChar) hw,
      getLast?_reverse_eq_head?] at hc
    have hh := List.head?_dropWhile_not isSpaceChar l
    rw [hc] at hh
    exact hh

theorem trimWS_fix (l : List Char) : trimWS (trimWS l) = trimWS l := by
  have hA : (trimWS l).dropWhile isSpaceChar = trimWS l :=
    dropWhile_of_head_not _ _ (head?_trimWS_not l)
  rw [show trimWS (trimWS l) =
      (((trimWS l).dropWhile isSpaceChar).reverse.dropWhile isSpaceChar).reverse from rfl]
  rw [hA]
  rw [show trimWS l =
      ((l.dropWhile isSpaceChar).reverse.dropWhile isSpaceChar).reverse from rfl]
  rw [List.reverse_reverse, dropWhile_fix]

theorem trimWS_within (z : List Char) : trimWS z <:+: z := by
  rw [trimWS]
  have h1 : ((z.dropWhile isSpaceChar).reverse.dropWhile isSpaceChar).reverse <+:
      z.dropWhile isSpaceChar := by
    have h2 := List.reverse_prefix.mpr
      (List.dropWhile_suffix (l := (z.dropWhile isSpaceChar).reverse) isSpaceChar)
    rwa [List.reverse_reverse] at h2
  exact h1.isInfix.trans (List.dropWhile_suffix isSpaceChar).isInfix

theorem mem_trimWS {c : Char} {z : List Char} (h : c ∈ trimWS z) : c ∈ z :=
  (trimWS_within z).sublist.subset h

theorem mem_collapse_go {c : Char} :
    ∀ (l : List Char) (b : Bool), c ∈ collapseWS.go b l → c = ' ' ∨ c ∈ l := by
  intro l
  induction l with
  | nil => intro b h; simp [collapseWS.go] at h
  | cons x xs ih =>
    intro b h
    rw [collapseWS.go] at h
    by_cases hs : isSpaceChar x = true
    · rw [hs] at h
      simp only [if_pos rfl] at h
      cases b with
      | true =>
        rcases ih true h with h2 | h2
        · exact Or.inl h2
        · exact Or.inr (List.mem_cons_of_mem x h2)
      | false =>
        simp only [Bool.false_eq_true, if_false, if_true, List.mem_cons] at h
        rcases h with h | h
        · exact Or.inl h
        · rcases ih true h with h2 | h2
          · exact Or.inl h2
          · exact Or.inr (List.mem_cons_of_mem x h2)
    · rw [Bool.not_eq_true] at hs
      rw [hs] at h
      simp only [Bool.false_eq_true, if_false, List.mem_cons] at h
      rcases h with rfl | h
      · exact Or.inr (List.mem_cons_self c xs)
      · rcases ih false h with h2 | h2
        · exact Or.inl h2
        · exact Or.inr (List.mem_cons_of_mem x h2)

theorem collapse_go_head_true :
    ∀ (l : List Char) (c : Char),
      (collapseWS.go true l).head? = some c → isSpaceChar c = false := by
  intro l
  induction l with
  | nil => intro c hc; simp [collapseWS.go] at hc
  | cons x xs ih =>
    intro c hc
    rw [collapseWS.go] at hc
    by_cases hs : isSpaceChar x = true
    · rw [hs] at hc
      simp only [if_pos rfl] at hc
      exact ih c hc
    · rw [Bool.not_eq_true] at hs
      rw [hs] at hc
      simp only [Bool.false_eq_true, if_false, List.head?_cons, Option.some.injEq] at hc
      rw [← hc]
      exact hs

theorem collapse_go_chain :
    ∀ (l : List Char) (b : Bool),
      (collapseWS.go b l).Chain' (fun a b2 => isSpaceChar a = false ∨ isSpaceChar b2 = false) := by
  intro l
  induction l with
  | nil => intro b; simp [collapseWS.go]
  | cons x xs ih =>
    intro b
    rw [collapseWS.go]
    by_cases hs : isSpaceChar x = true
    · rw [hs]
      simp only [if_pos rfl]
      cases b with
      | true => exact ih true
      | false =>
        simp only [Bool.false_eq_true, if_false]
        refine List.chain'_cons'.mpr ⟨?_, ih true⟩
        intro y hy
        exact Or.inr (collapse_go_head_true xs y hy)
    · rw [Bool.not_eq_true] at hs
      rw [hs]
      simp only [Bool.false_eq_true, if_false]
      refine List.chain'_cons'.mpr ⟨?_, ih false⟩
      intro y _
      exact Or.inl hs

theorem collapse_go_all_space :
    ∀ (l : List Char) (b : Bool) (c : Char), c ∈ collapseWS.go b l →
      isSpaceChar c = true → c = ' ' := by
  intro l
  induction l with
  | nil => intro b c hc; simp [collapseWS.go] at hc
  | cons x xs ih =>
    intro b c hc hcs
    rw [collapseWS.go] at hc
    by_cases hs : isSpaceChar x = true
    · rw [hs] at hc
      simp only [if_pos rfl] at hc
      cases b with
      | true => exact ih true c hc hcs
      | false =>
        simp only [Bool.false_eq_true, if_false, if_true, List.mem_cons] at hc
        rcases hc with hc | hc
        · exact hc
        · exact ih true c hc hcs
    · rw [Bool.not_eq_true] at hs
      rw [hs] at hc
      simp only [Bool.false_eq_true, if_false, List.mem_cons] at hc
      rcases hc with hc | hc
      · rw [hc, hs] at hcs
        exact absurd hcs (by simp)
      · exact ih false c hc hcs

theorem collapse_go_true_eq_false (l : List Char)
    (h : ∀ c, l.head? = some c → isSpaceChar c = false) :
    collapseWS.go true l = collapseWS.go false l := by
  cases l with
  | nil => rfl
  | cons x xs =>
    have hx := h x rfl
    rw [collapseWS.go, collapseWS.go, hx]
    simp

theorem collapse_fix_of_canonical :
    ∀ (l : List Char),
      (∀ c ∈ l, isSpaceChar c = true → c = ' ') →
      l.Chain' (fun a b2 => isSpaceChar a = false ∨ isSpaceChar b2 = false) →
      collapseWS.go false l = l := by
  intro l
  induction l with
  | nil => intro _ _; rfl
  | cons x xs ih =>
    intro hall hch
    rw [collapseWS.go]
    by_cases hs : isSpaceChar x = true
    · have hx : x = ' ' := hall x (List.mem_cons_self x xs) hs
      rw [hs]
      simp only [if_pos rfl, Bool.false_eq_true, if_false]
      have hhead : ∀ c, xs.head? = some c → isSpaceChar c = false := by
        intro c hc
        rcases (List.chain'_cons'.mp hch).1 c hc with h1 | h1
        · rw [hs] at h1
          exact absurd h1 (by simp)
        · exact h1
      rw [collapse_go_true_eq_false xs hhead]
      rw [ih (fun c hc hcs => hall c (List.mem_cons_of_mem x hc) hcs)
        (List.chain'_cons'.mp hch).2]
      rw [hx]
      simp
    · rw [Bool.not_eq_true] at hs
      rw [hs]
      simp only [Bool.false_eq_true, if_false]
      rw [ih (fun c hc hcs => hall c (List.mem_cons_of_mem x hc) hcs)
        (List.chain'_cons'.mp hch).2]

theorem collapseWS_trimWS_collapseWS (y : List Char) :
    collapseWS (trimWS (collapseWS y)) = trimWS (collapseWS y) := by
  apply collapse_fix_of_canonical
  · intro c hc hcs
    exact collapse_go_all_space y false c (mem_trimWS hc) hcs
  · exact List.Chain'.infix (collapse_go_chain y false) (trimWS_within (collapseWS y))

/-- C9, counterexample.  On the non-ASCII input `"中"`, `unidecode` produces the
capitalised `"Zhong"`, but lowercasing happens *before* transliteration, so a
second application of `normalize_candidate` lowercases it to `"zhong"`:
`normalize_candidate` is not idempotent on all inputs. -/
theorem normalize_candidate_idempotent_counterexample :
    normalizeCandidate (String.data "中") = String.data "Zhong" ∧
    normalizeCandidate (normalizeCandidate (String.data "中")) = String.data "zhong" ∧
    normalizeCandidate (normalizeCandidate (String.data "中")) ≠
      normalizeCandidate (String.data "中") := by
  refine ⟨by decide, by decide, by decide⟩

/-- C9 (amended): `normalize_candidate` is idempotent on ASCII input.  For such
input `unidecode` is the identity, the first application lowercases every
character and canonicalises whitespace (single interior spaces, no leading or
trailing whitespace), and each pass of the second application fixes that
canonical form. -/
theorem normalize_candidate_idempotent_ascii (s : List Char)
    (hascii : ∀ c ∈ s, c.toNat < 128) :
    normalizeCandidate (normalizeCandidate s) = normalizeCandidate s := by
  by_cases hs : s = []
  · rw [hs]
    rfl
  · have hasciiY : ∀ c ∈ trimWS (pyLowerList s), c.toNat < 128 := by
      intro c hc
      obtain ⟨a, ha, hae⟩ := List.mem_map.mp (mem_trimWS hc)
      rw [← hae]
      exact pyLowerChar_ascii a (hascii a ha)
    have h1 : normalizeCandidate s = trimWS (collapseWS (trimWS (pyLowerList s))) := by
      simp only [normalizeCandidate]
      rw [if_neg hs, unidecodeList_ascii _ hasciiY]
    rw [h1]
    by_cases hne : trimWS (collapseWS (trimWS (pyLowerList s))) = []
    · rw [hne]
      rfl
    · have hmemn : ∀ c ∈ trimWS (collapseWS (trimWS (pyLowerList s))),
          c = ' ' ∨ c ∈ pyLowerList s := by
        intro c hc
        rcases mem_collapse_go (trimWS (pyLowerList s)) false (mem_trimWS hc) with h | h
        · exact Or.inl h
        · exact Or.inr (mem_trimWS h)
      have hfix : ∀ c ∈ trimWS (collapseWS (trimWS (pyLowerList s))),
          pyLowerChar c = c := by
        intro c hc
        rcases hmemn c hc with h | h
        · rw [h]
          decide
        · obtain ⟨a, _, hae⟩ := List.mem_map.mp h
          rw [← hae, pyLowerChar_idem]
      have hasciin : ∀ c ∈ trimWS (collapseWS (trimWS (pyLowerList s))),
          c.toNat < 128 := by
        intro c hc
        rcases hmemn c hc with h | h
        · rw [h]
          decide
        · obtain ⟨a, ha, hae⟩ := List.mem_map.mp h
          rw [← hae]
          exact pyLowerChar_ascii a (hascii a ha)
      have hpln : pyLowerList (trimWS (collapseWS (trimWS (pyLowerList s)))) =
          trimWS (collapseWS (trimWS (pyLowerList s))) :=
        calc pyLowerList (trimWS (collapseWS (trimWS (pyLowerList s))))
            = List.map id (trimWS (collapseWS (trimWS (pyLowerList s)))) :=
              List.map_congr_left hfix
          _ = trimWS (collapseWS (trimWS (pyLowerList s))) := List.map_id _
      simp only [normalizeCandidate]
      rw [if_neg hne, hpln, trimWS_fix, unidecodeList_ascii _ hasciin,
        collapseWS_trimWS_collapseWS, trimWS_fix]

/-- C9, witness for the amended theorem at a concrete ASCII input with
repeated interior whitespace. -/
theorem normalize_candidate_idempotent_ascii_witness :
    (∀ c ∈ String.data "  Emma   BROWN ", c.toNat < 128) ∧
    normalizeCandidate (normalizeCandidate (String.data "  Emma   BROWN ")) =
      normalizeCandidate (String.data "  Emma   BROWN ") :=
  ⟨by decide, normalize_candidate_idempotent_ascii _ (by decide)⟩

end DeelPipeline

